import Mathlib

/-!
# WordVinder board-state pipeline: shallow embedding

This file embeds the model-output parsing and normalization pipeline of the
wordvinder-server repository (`src/lib/boardState.js`, `src/lib/boardState/…`)
into Lean 4 and proves the frozen claims about it.

Modelling conventions:

* JSON values are modelled by the inductive `Json`.  The string-level stages of
  the pipeline (code-fence stripping, the `{…}` shape pre-check and
  `JSON.parse`) are not modelled; every embedded parser starts from the decoded
  value, exactly as the JS code does after its `JSON.parse` call.  A JS object
  is a list of key/value pairs in insertion order (`JSON.parse` collapses
  duplicate keys before the pipeline ever sees the object), and `undefined`
  (an absent key) is distinguished from JSON `null` via `Option Json`.
* JS numbers are modelled as `Int`.  Every numeric field accepted by the
  validators must pass `Number.isInteger` (or is truncated to an integer by the
  legacy parser), so non-integral numbers are always rejected; modelling them
  as integers only removes inputs on which every claim is vacuous.  The
  `Number(x)` coercion is embedded by `jsNumber`, covering `null`, booleans,
  numbers and decimal numeric strings; the remaining exotic coercions
  (arrays, objects, hex strings) are mapped to `NaN` (`none`).
* JS `Array.prototype.sort` is a stable sort and its comparators here are
  difference-based total preorders, so it is embedded as
  `List.insertionSort r` with `r a b ↔ cmp a b ≤ 0` (Mathlib's
  `orderedInsert` places the earlier element first on ties, which matches
  stable-sort semantics).
* JS `Map` (used for merging and grouping) preserves insertion order of keys;
  it is embedded as an association list updated in place.
-/

set_option maxRecDepth 8000

namespace WordVinder

/-! ## Characters and strings (JS `trim`, `toUpperCase`, regexes) -/

/-- JS whitespace as far as the pipeline is concerned (space, tab, LF, CR). -/
def isWSChar (c : Char) : Bool :=
  c.toNat == 32 || c.toNat == 9 || c.toNat == 10 || c.toNat == 13

/-- `[A-Z]` character class. -/
def isAZChar (c : Char) : Bool :=
  65 ≤ c.toNat && c.toNat ≤ 90

/-- `[a-z]` character class. -/
def isLowAZChar (c : Char) : Bool :=
  97 ≤ c.toNat && c.toNat ≤ 122

/-- ASCII upper-casing of one character (JS `toUpperCase`, restricted to the
characters the validators can accept). -/
def upChar (c : Char) : Char :=
  if isLowAZChar c then Char.ofNat (c.toNat - 32) else c

/-- Remove leading and trailing whitespace from a character list. -/
def trimCharList (cs : List Char) : List Char :=
  ((cs.dropWhile isWSChar).reverse.dropWhile isWSChar).reverse

/-- JS `s.trim().toUpperCase()`, the normalization applied to every string
field before validation. -/
def normStr (s : String) : String :=
  String.mk ((trimCharList s.data).map upChar)

/-- Regex `^[A-Z]$`. -/
def isSingleAZ (s : String) : Bool :=
  match s.data with
  | [c] => isAZChar c
  | _ => false

/-- Regex `^[A-Z]+$`. -/
def isWordAZ (s : String) : Bool :=
  !s.data.isEmpty && s.data.all isAZChar

/-- Prefix test on character lists (helper for `strIncludes`). -/
def leadsWith : List Char → List Char → Bool
  | [], _ => true
  | _ :: _, [] => false
  | a :: as, b :: bs => a == b && leadsWith as bs

/-- Substring search on character lists. -/
def hasSubList (needle : List Char) : List Char → Bool
  | [] => leadsWith needle []
  | c :: cs => leadsWith needle (c :: cs) || hasSubList needle cs

/-- JS `haystack.includes(needle)`. -/
def strIncludes (haystack needle : String) : Bool :=
  hasSubList needle.data haystack.data

/-! ## `utils.js` -/

/-- `SUSPICIOUS_TOKENS` from `utils.js` (and, identically, `boardState.js`). -/
def SUSPICIOUS_TOKENS : List String :=
  ["FREE", "HINT", "COIN", "COINS", "LEVEL", "DAILY"]

/-- `isSuspiciousWord` from `utils.js`. -/
def isSuspiciousWord (word : String) : Bool :=
  SUSPICIOUS_TOKENS.any fun token => strIncludes word token

/-- Worker for `dedupePreserveOrder`: `seen` is the set of already-kept items
(JS uses a `Set`; only membership is observable). -/
def dedupeGo {α : Type} [DecidableEq α] (seen : List α) : List α → List α
  | [] => []
  | x :: xs => if x ∈ seen then dedupeGo seen xs else x :: dedupeGo (x :: seen) xs

/-- `dedupePreserveOrder` from `utils.js`: keep the first occurrence of each
item, preserving order. -/
def dedupePreserveOrder {α : Type} [DecidableEq α] (items : List α) : List α :=
  dedupeGo [] items

/-! ## JSON values -/

/-- A decoded JSON value (output of `JSON.parse`). -/
inductive Json : Type where
  | null : Json
  | bool : Bool → Json
  | num : Int → Json
  | str : String → Json
  | arr : List Json → Json
  | obj : List (String × Json) → Json
deriving Repr

/-- JS property access `o[k]`: `none` models `undefined` (absent key). -/
def getField (fields : List (String × Json)) (k : String) : Option Json :=
  match fields with
  | [] => none
  | (k', v) :: rest => if k' = k then some v else getField rest k

/-- Decimal digits to a natural number (`none` if empty or non-digit). -/
def decDigits : List Char → Option Nat
  | [] => none
  | cs => go cs 0
where
  go : List Char → Nat → Option Nat
    | [], acc => some acc
    | c :: cs, acc =>
      if 48 ≤ c.toNat ∧ c.toNat ≤ 57 then go cs (acc * 10 + (c.toNat - 48)) else none

/-- JS `Number(s)` for a string: trims whitespace, empty means `0`, otherwise
an optionally signed decimal integer; anything else is `NaN` (`none`). -/
def jsStrToInt (s : String) : Option Int :=
  match trimCharList s.data with
  | [] => some 0
  | c :: cs =>
    if c.toNat == 45 then (decDigits cs).map fun n => -(n : Int)
    else if c.toNat == 43 then (decDigits cs).map fun n => (n : Int)
    else (decDigits (c :: cs)).map fun n => (n : Int)

/-- JS `Number(x)` coercion of a possibly-absent JSON value; `none` is `NaN`
(which fails every subsequent `Number.isInteger`/`Number.isFinite` check). -/
def jsNumber : Option Json → Option Int
  | none => none
  | some Json.null => some 0
  | some (Json.bool b) => some (if b then 1 else 0)
  | some (Json.num n) => some n
  | some (Json.str s) => jsStrToInt s
  | some (Json.arr _) => none
  | some (Json.obj _) => none

/-- `isPlainObject` from `utils.js`: every object produced by `JSON.parse` has
`Object.prototype` as prototype, so at this level the check is exactly "is a
non-array JSON object". -/
def isPlainObject : Json → Bool
  | Json.obj _ => true
  | _ => false

/-- `normalizeNotes` from `utils.js`: keep only the string elements of an
array, default to an empty list. -/
def normalizeNotes (v : Option Json) : List String :=
  match v with
  | some (Json.arr xs) =>
    xs.filterMap fun x => match x with
      | Json.str s => some s
      | _ => none
  | _ => []

/-! ## Structured errors -/

/-- A structured pipeline error; the optional raw `details` payload of the JS
errors is not modelled (no claim mentions it). -/
structure ErrInfo : Type where
  code : String
  message : String
deriving DecidableEq, Repr

/-! ## Canonical Wordscapes data (`wordscapes.js`) -/

/-- A normalized `missingByLength` entry: `count = none` models JSON `null`
("unknown"). -/
structure MEntry : Type where
  length : Int
  count : Option Int
deriving DecidableEq, Repr

/-- A normalized `wordLists` entry (the `index` bookkeeping field is dropped
before output). -/
structure WLEntry : Type where
  length : Int
  slots : List (Option String)
deriving DecidableEq, Repr

/-- A `wordLists` entry together with its raw array index, as kept during
`normalizeWordLists` for sort tie-breaking. -/
structure WLEntryI : Type where
  length : Int
  slots : List (Option String)
  index : Nat
deriving DecidableEq, Repr

/-- A `solvedWordsByLength` entry. -/
structure SolvedEntry : Type where
  length : Int
  words : List String
deriving DecidableEq, Repr

/-- The canonical Wordscapes board.  The constant `schema`/`game` discriminant
strings are implicit in the type; `wordLists = []` (resp.
`solvedWordsByLength = []`) models the key being omitted from the output
object, which is exactly when the JS code omits it. -/
structure WordscapesBoard : Type where
  letters : List String
  missingByLength : List MEntry
  notes : List String
  wordLists : List WLEntry
  solvedWordsByLength : List SolvedEntry
deriving DecidableEq, Repr

/-- The in-place count update of `mergeMissingByLength`: `null` poisons,
otherwise add. -/
def combineCount : Option Int → Option Int → Option Int
  | some m, some n => some (m + n)
  | _, _ => none

/-- One `Map` step of `mergeMissingByLength`: update the entry with this
length in place, or append a fresh one (JS `Map` preserves insertion order). -/
def addMerge : List MEntry → MEntry → List MEntry
  | [], e => [e]
  | a :: rest, e =>
    if a.length = e.length then ⟨a.length, combineCount a.count e.count⟩ :: rest
    else a :: addMerge rest e

instance : DecidableRel fun (a b : MEntry) => a.length ≤ b.length :=
  fun a b => inferInstanceAs (Decidable (a.length ≤ b.length))

/-- `mergeMissingByLength` from `utils.js`: merge entries by length with
null-poisoning addition, then sort ascending by length. -/
def mergeMissingByLength (entries : List MEntry) : List MEntry :=
  List.insertionSort (fun a b => a.length ≤ b.length) (entries.foldl addMerge [])

/-- Allow-list of top-level keys for Wordscapes. -/
def ALLOWED_TOP_LEVEL_KEYS_WORDSCAPES : List String :=
  ["schema", "game", "letters", "missingByLength", "wordLists", "solvedWordsByLength", "notes"]

/-- The per-letter loop of `normalizeLetters`. -/
def normLetterList : List Json → Except ErrInfo (List String)
  | [] => Except.ok []
  | x :: xs =>
    match x with
    | Json.str s =>
      let t := normStr s
      if isSingleAZ t then do
        let rest ← normLetterList xs
        Except.ok (t :: rest)
      else
        Except.error ⟨"MODEL_OUTPUT_SCHEMA_INVALID", "letters must contain single A-Z characters."⟩
    | _ =>
      Except.error ⟨"MODEL_OUTPUT_SCHEMA_INVALID", "letters must contain single A-Z characters."⟩

/-- `normalizeLetters` from `wordscapes.js`. -/
def normalizeLetters (lettersRaw : Json) : Except ErrInfo (List String) :=
  match lettersRaw with
  | Json.arr xs =>
    if xs.length < 5 ∨ 8 < xs.length then
      Except.error ⟨"MODEL_OUTPUT_SCHEMA_INVALID", "letters must contain 5 to 8 items."⟩
    else do
      let letters ← normLetterList xs
      let deduped := dedupePreserveOrder letters
      if deduped.length < 5 then
        Except.error ⟨"MODEL_OUTPUT_SCHEMA_INVALID", "letters must contain at least 5 unique characters."⟩
      else Except.ok deduped
  | _ => Except.error ⟨"MODEL_OUTPUT_SCHEMA_INVALID", "letters must be an array."⟩

/-- The per-entry validation of `normalizeMissingByLength`. -/
def normalizeMissingEntry (entry : Json) : Except ErrInfo MEntry :=
  match entry with
  | Json.obj fs =>
    match jsNumber (getField fs "length") with
    | some L =>
      if 3 ≤ L ∧ L ≤ 12 then
        match getField fs "count" with
        | some Json.null => Except.ok ⟨L, none⟩
        | cf =>
          match jsNumber cf with
          | some c =>
            if 0 ≤ c ∧ c ≤ 20 then Except.ok ⟨L, some c⟩
            else
              Except.error ⟨"MODEL_OUTPUT_SCHEMA_INVALID",
                "missingByLength count must be null or an integer between 0 and 20."⟩
          | none =>
            Except.error ⟨"MODEL_OUTPUT_SCHEMA_INVALID",
              "missingByLength count must be null or an integer between 0 and 20."⟩
      else
        Except.error ⟨"MODEL_OUTPUT_SCHEMA_INVALID",
          "missingByLength length must be an integer between 3 and 12."⟩
    | none =>
      Except.error ⟨"MODEL_OUTPUT_SCHEMA_INVALID",
        "missingByLength length must be an integer between 3 and 12."⟩
  | _ =>
    Except.error ⟨"MODEL_OUTPUT_SCHEMA_INVALID", "missingByLength entries must be objects."⟩

/-- The entry loop of `normalizeMissingByLength`. -/
def normalizeMissingEntries : List Json → Except ErrInfo (List MEntry)
  | [] => Except.ok []
  | x :: xs => do
    let e ← normalizeMissingEntry x
    let rest ← normalizeMissingEntries xs
    Except.ok (e :: rest)

/-- `normalizeMissingByLength` from `wordscapes.js`. -/
def normalizeMissingByLength (missingRaw : Json) : Except ErrInfo (List MEntry) :=
  match missingRaw with
  | Json.arr xs => (normalizeMissingEntries xs).map mergeMissingByLength
  | _ => Except.error ⟨"MODEL_OUTPUT_SCHEMA_INVALID", "missingByLength must be an array."⟩

/-- The slot-level map of `normalizeWordLists`: invalid word strings collapse
to `null`, preserving the slot position. -/
def normSlot (rawLength : Int) (slot : Json) : Option String :=
  match slot with
  | Json.str s =>
    let t := normStr s
    if isWordAZ t ∧ (t.data.length : Int) = rawLength ∧ ¬ isSuspiciousWord t = true then some t
    else none
  | _ => none

/-- The body of the `normalizeWordLists` entry loop for one raw entry at raw
index `i`: `none` models the loop's `continue`. -/
def collectWLEntry (i : Nat) (e : Json) : Option WLEntryI :=
  match e with
  | Json.obj fs =>
    match jsNumber (getField fs "length") with
    | some L =>
      if 3 ≤ L ∧ L ≤ 12 then
        match getField fs "slots" with
        | some (Json.arr ss) => some ⟨L, ss.map (normSlot L), i⟩
        | _ => none
      else none
    | none => none
  | _ => none

/-- The entry loop of `normalizeWordLists`; `i` is the raw array index
(`wordListsRaw.entries()`), counted over skipped entries too. -/
def collectWordLists (i : Nat) : List Json → List WLEntryI
  | [] => []
  | e :: es =>
    match collectWLEntry i e with
    | some E => E :: collectWordLists (i + 1) es
    | none => collectWordLists (i + 1) es

/-- The sort order of `normalizeWordLists`: comparator
`a.length - b.length || a.index - b.index` (stable sort, "goes not after"). -/
def wlLe (a b : WLEntryI) : Prop :=
  a.length < b.length ∨ (a.length = b.length ∧ a.index ≤ b.index)

instance : DecidableRel wlLe := fun a b =>
  inferInstanceAs (Decidable (a.length < b.length ∨ (a.length = b.length ∧ a.index ≤ b.index)))

/-- `normalizeWordLists` from `wordscapes.js`; returns `none` for an
`undefined` or non-array field (appending the diagnostic note in the latter
case), mirroring the mutation of the shared `notes` array by returning the
updated notes. -/
def normalizeWordLists (wordListsRaw : Option Json) (notes : List String) :
    Option (List WLEntry) × List String :=
  match wordListsRaw with
  | none => (none, notes)
  | some (Json.arr xs) =>
    (some ((List.insertionSort wlLe (collectWordLists 0 xs)).map fun e =>
      WLEntry.mk e.length e.slots), notes)
  | some _ => (none, notes ++ ["Ignored invalid wordLists (not an array)"])

/-- The `Map.get(length).push(word)` step of
`deriveSolvedWordsFromWordLists`. -/
def pushGroup : List (Int × List String) → Int → String → List (Int × List String)
  | [], L, w => [(L, [w])]
  | (K, ws) :: rest, L, w =>
    if K = L then (K, ws ++ [w]) :: rest else (K, ws) :: pushGroup rest L w

/-- The slot loop of `deriveSolvedWordsFromWordLists`; `if (!word) continue`
skips both `null` slots and the (falsy) empty string. -/
def pushSlots (L : Int) (acc : List (Int × List String)) : List (Option String) → List (Int × List String)
  | [] => acc
  | none :: ss => pushSlots L acc ss
  | some w :: ss =>
    if w.data.isEmpty then pushSlots L acc ss else pushSlots L (pushGroup acc L w) ss

/-- The entry loop of `deriveSolvedWordsFromWordLists`. -/
def groupWordLists (acc : List (Int × List String)) : List WLEntry → List (Int × List String)
  | [] => acc
  | e :: es => groupWordLists (pushSlots e.length acc e.slots) es

instance : DecidableRel fun (a b : Int × List String) => a.1 ≤ b.1 :=
  fun a b => inferInstanceAs (Decidable (a.1 ≤ b.1))

/-- `deriveSolvedWordsFromWordLists` from `wordscapes.js` (its `!Array.isArray`
guard is unreachable from `parseWordscapes`, which only calls it on arrays). -/
def deriveSolvedWordsFromWordLists (wordLists : List WLEntry) : List SolvedEntry :=
  (List.insertionSort (fun a b => a.1 ≤ b.1) (groupWordLists [] wordLists)).map
    fun g => SolvedEntry.mk g.1 (dedupePreserveOrder g.2)

/-- The word loop of `normalizeSolvedWordsByLength` (invalid words are
skipped, not nulled). -/
def collectSolvedWords (L : Int) : List Json → List String
  | [] => []
  | w :: ws =>
    match w with
    | Json.str s =>
      let t := normStr s
      if isWordAZ t ∧ (t.data.length : Int) = L ∧ ¬ isSuspiciousWord t = true then
        t :: collectSolvedWords L ws
      else collectSolvedWords L ws
    | _ => collectSolvedWords L ws

/-- The body of the `normalizeSolvedWordsByLength` entry loop for one raw
entry: `none` models the loop's `continue`. -/
def collectSolvedEntry (e : Json) : Option SolvedEntry :=
  match e with
  | Json.obj fs =>
    match jsNumber (getField fs "length") with
    | some L =>
      if 3 ≤ L ∧ L ≤ 12 then
        match getField fs "words" with
        | some (Json.arr ws) => some ⟨L, dedupePreserveOrder (collectSolvedWords L ws)⟩
        | _ => none
      else none
    | none => none
  | _ => none

/-- The entry loop of `normalizeSolvedWordsByLength`. -/
def collectSolvedEntries : List Json → List SolvedEntry
  | [] => []
  | e :: es =>
    match collectSolvedEntry e with
    | some E => E :: collectSolvedEntries es
    | none => collectSolvedEntries es

instance : DecidableRel fun (a b : SolvedEntry) => a.length ≤ b.length :=
  fun a b => inferInstanceAs (Decidable (a.length ≤ b.length))

/-- `normalizeSolvedWordsByLength` from `wordscapes.js`. -/
def normalizeSolvedWordsByLength (solvedRaw : Option Json) (notes : List String) :
    Option (List SolvedEntry) × List String :=
  match solvedRaw with
  | none => (none, notes)
  | some (Json.arr xs) =>
    (some (List.insertionSort (fun a b => a.length ≤ b.length) (collectSolvedEntries xs)), notes)
  | some _ => (none, notes ++ ["Ignored invalid solvedWordsByLength (not an array)"])

/-- `parseWordscapes` from `wordscapes.js`, taking the decoded object's
key/value pairs (the router has already established it is an object). -/
def parseWordscapes (fields : List (String × Json)) : Except ErrInfo WordscapesBoard :=
  let keys := fields.map Prod.fst
  let invalidKeys := keys.filter fun k => !ALLOWED_TOP_LEVEL_KEYS_WORDSCAPES.contains k
  if invalidKeys ≠ [] then
    Except.error ⟨"MODEL_OUTPUT_SCHEMA_INVALID", "Model output JSON contains unexpected keys."⟩
  else
    match getField fields "letters", getField fields "missingByLength" with
    | some lettersRaw, some missingRaw => do
      let letters ← normalizeLetters lettersRaw
      let missing ← normalizeMissingByLength missingRaw
      let notes0 := normalizeNotes (getField fields "notes")
      let (wlOpt, notes1) := normalizeWordLists (getField fields "wordLists") notes0
      match wlOpt with
      | some wl =>
        if wl ≠ [] then
          Except.ok ⟨letters, missing, notes1, wl, deriveSolvedWordsFromWordLists wl⟩
        else
          let (swOpt, notes2) :=
            normalizeSolvedWordsByLength (getField fields "solvedWordsByLength") notes1
          Except.ok ⟨letters, missing, notes2, [], swOpt.getD []⟩
      | none =>
        let (swOpt, notes2) :=
          normalizeSolvedWordsByLength (getField fields "solvedWordsByLength") notes1
        Except.ok ⟨letters, missing, notes2, [], swOpt.getD []⟩
    | _, _ =>
      Except.error ⟨"MODEL_OUTPUT_SCHEMA_INVALID", "Model output JSON is missing required fields."⟩

/-! ## Wordscapes summary builder -/

structure WordscapesSummary : Type where
  letters : String
  remainingByLength : List MEntry
  totalRemaining : Option Int
deriving DecidableEq, Repr

/-- The summing loop of `buildWordscapesSummary`: a `null` count sets the
total to `null` and breaks. -/
def totalRemainingLoop : List MEntry → Int → Option Int
  | [], acc => some acc
  | e :: es, acc =>
    match e.count with
    | none => none
    | some c => totalRemainingLoop es (acc + c)

/-- `buildWordscapesSummary` from `wordscapes.js`. -/
def buildWordscapesSummary (board : WordscapesBoard) : WordscapesSummary :=
  ⟨String.intercalate " " board.letters, board.missingByLength,
    totalRemainingLoop board.missingByLength 0⟩

/-! ## Serialization of a canonical Wordscapes board

`JSON.stringify` on the canonical board object followed by `JSON.parse` is the
identity on these values (they contain only strings, small integers, `null`,
arrays and plain objects), so re-feeding the serialized board text to the
parser is re-running the parser on the value built here.  The key order
mirrors the insertion order of the JS board object literal. -/

def mEntryToJson (e : MEntry) : Json :=
  Json.obj [("length", Json.num e.length),
    ("count", match e.count with | none => Json.null | some c => Json.num c)]

def slotToJson : Option String → Json
  | none => Json.null
  | some w => Json.str w

def wlEntryToJson (e : WLEntry) : Json :=
  Json.obj [("length", Json.num e.length), ("slots", Json.arr (e.slots.map slotToJson))]

def solvedEntryToJson (e : SolvedEntry) : Json :=
  Json.obj [("length", Json.num e.length), ("words", Json.arr (e.words.map Json.str))]

def wsBoardFields (b : WordscapesBoard) : List (String × Json) :=
  [("schema", Json.str "WORDVINDER_BOARD_EXTRACT_V4"),
   ("game", Json.str "WORDSCAPES"),
   ("letters", Json.arr (b.letters.map Json.str)),
   ("missingByLength", Json.arr (b.missingByLength.map mEntryToJson)),
   ("notes", Json.arr (b.notes.map Json.str))] ++
  (if b.wordLists = [] then [] else
    [("wordLists", Json.arr (b.wordLists.map wlEntryToJson))]) ++
  (if b.solvedWordsByLength = [] then [] else
    [("solvedWordsByLength", Json.arr (b.solvedWordsByLength.map solvedEntryToJson))])

def wsBoardToJson (b : WordscapesBoard) : Json :=
  Json.obj (wsBoardFields b)

/-! ## Scrabble (`scrabble.js`, the variant wired into the router) -/

/-- Allow-list of top-level keys for Scrabble (identical in both normalizer
variants). -/
def ALLOWED_TOP_LEVEL_KEYS_SCRABBLE : List String :=
  ["schema", "game", "rack", "board", "notes"]

/-- A normalized rack tile of the wired (`scrabble.js`) variant. -/
structure RackTile : Type where
  letter : Option String
  isBlank : Bool
deriving DecidableEq, Repr

/-- The normalized `board` object: `size` is always 15, `tiles` a 15×15 grid
of `null` or single letters. -/
structure ScrabbleGrid : Type where
  size : Int
  tiles : List (List (Option String))
deriving DecidableEq, Repr

/-- The canonical Scrabble board (constant `schema`/`game` discriminants
implicit in the type). -/
structure ScrabbleBoard : Type where
  rack : List RackTile
  board : ScrabbleGrid
  notes : List String
deriving DecidableEq, Repr

/-- The per-tile body of the rack loop in `scrabble.js`: `isBlank` only for
the literal boolean `true`; a `letter` that is a string but does not reduce to
a single `A-Z` character silently degrades to `null`; a blank tile's letter is
forced to `null`. -/
def normRackTile (tile : Json) : Except ErrInfo RackTile :=
  match tile with
  | Json.obj fs =>
    let isB := match getField fs "isBlank" with
      | some (Json.bool true) => true
      | _ => false
    match getField fs "letter" with
    | none => Except.ok ⟨none, isB⟩
    | some Json.null => Except.ok ⟨none, isB⟩
    | some (Json.str s) =>
      let t := normStr s
      Except.ok ⟨if isB then none else if isSingleAZ t then some t else none, isB⟩
    | some _ =>
      Except.error ⟨"MODEL_OUTPUT_SCHEMA_INVALID", "rack tile letter must be a string or null."⟩
  | _ => Except.error ⟨"MODEL_OUTPUT_SCHEMA_INVALID", "rack tiles must be objects."⟩

/-- The rack loop of `scrabble.js`. -/
def normRackList : List Json → Except ErrInfo (List RackTile)
  | [] => Except.ok []
  | t :: ts => do
    let tile ← normRackTile t
    let rest ← normRackList ts
    Except.ok (tile :: rest)

/-- `normalizeScrabbleRack` from `scrabble.js`. -/
def normalizeScrabbleRack (rackRaw : Json) : Except ErrInfo (List RackTile) :=
  match rackRaw with
  | Json.arr xs =>
    if 7 < xs.length then
      Except.error ⟨"MODEL_OUTPUT_SCHEMA_INVALID", "rack must contain 0 to 7 tiles."⟩
    else normRackList xs
  | _ => Except.error ⟨"MODEL_OUTPUT_SCHEMA_INVALID", "rack must be an array."⟩

/-- The cell loop of `normalizeScrabbleBoard` (shared verbatim by both
variants). -/
def normGridCells : List Json → Except ErrInfo (List (Option String))
  | [] => Except.ok []
  | c :: cs =>
    match c with
    | Json.null => do
      let rest ← normGridCells cs
      Except.ok (none :: rest)
    | Json.str s =>
      let t := normStr s
      if isSingleAZ t then do
        let rest ← normGridCells cs
        Except.ok (some t :: rest)
      else
        Except.error ⟨"MODEL_OUTPUT_SCHEMA_INVALID", "board tiles must be null or A-Z strings."⟩
    | _ => Except.error ⟨"MODEL_OUTPUT_SCHEMA_INVALID", "board tiles must be null or A-Z strings."⟩

/-- The row loop of `normalizeScrabbleBoard`. -/
def normGridRows : List Json → Except ErrInfo (List (List (Option String)))
  | [] => Except.ok []
  | r :: rs =>
    match r with
    | Json.arr cells =>
      if cells.length = 15 then do
        let row ← normGridCells cells
        let rest ← normGridRows rs
        Except.ok (row :: rest)
      else Except.error ⟨"MODEL_OUTPUT_SCHEMA_INVALID", "board tiles must be a 15x15 array."⟩
    | _ => Except.error ⟨"MODEL_OUTPUT_SCHEMA_INVALID", "board tiles must be a 15x15 array."⟩

/-- `normalizeScrabbleBoard` (identical in both variants). -/
def normalizeScrabbleBoard (boardRaw : Json) : Except ErrInfo ScrabbleGrid :=
  match boardRaw with
  | Json.obj fs =>
    match jsNumber (getField fs "size") with
    | some n =>
      if n = 15 then
        match getField fs "tiles" with
        | some (Json.arr rows) =>
          if rows.length = 15 then do
            let tiles ← normGridRows rows
            Except.ok ⟨15, tiles⟩
          else Except.error ⟨"MODEL_OUTPUT_SCHEMA_INVALID", "board tiles must be a 15x15 array."⟩
        | _ => Except.error ⟨"MODEL_OUTPUT_SCHEMA_INVALID", "board tiles must be a 15x15 array."⟩
      else Except.error ⟨"MODEL_OUTPUT_SCHEMA_INVALID", "board size must be 15."⟩
    | none => Except.error ⟨"MODEL_OUTPUT_SCHEMA_INVALID", "board size must be 15."⟩
  | _ => Except.error ⟨"MODEL_OUTPUT_SCHEMA_INVALID", "board must be an object."⟩

/-- `parseScrabble` from `scrabble.js`, on the decoded object's pairs. -/
def parseScrabble (fields : List (String × Json)) : Except ErrInfo ScrabbleBoard :=
  let keys := fields.map Prod.fst
  let invalidKeys := keys.filter fun k => !ALLOWED_TOP_LEVEL_KEYS_SCRABBLE.contains k
  if invalidKeys ≠ [] then
    Except.error ⟨"MODEL_OUTPUT_SCHEMA_INVALID", "Model output JSON contains unexpected keys."⟩
  else
    match getField fields "rack", getField fields "board" with
    | some rackRaw, some boardRaw => do
      let rack ← normalizeScrabbleRack rackRaw
      let grid ← normalizeScrabbleBoard boardRaw
      Except.ok ⟨rack, grid, normalizeNotes (getField fields "notes")⟩
    | _, _ =>
      Except.error ⟨"MODEL_OUTPUT_SCHEMA_INVALID", "Model output JSON is missing required fields."⟩

/-! ## Scrabble summary builder (identical in both variants) -/

structure ScrabbleSummary : Type where
  rack : String
  rackCount : Nat
  blankCount : Nat
deriving DecidableEq, Repr

/-- The glyph pushed for one tile by `buildScrabbleSummary`: `_` for a blank,
the letter when it is a string, nothing otherwise. -/
def rackGlyph (t : RackTile) : Option String :=
  if t.isBlank then some "_"
  else match t.letter with
    | some s => some s
    | none => none

/-- `buildScrabbleSummary` (both `scrabble.js` variants contain the same
function): `rackCount` is the length of the *pushed glyph list*, not of the
rack. -/
def buildScrabbleSummary (board : ScrabbleBoard) : ScrabbleSummary :=
  let letters := board.rack.filterMap rackGlyph
  ⟨String.join letters, letters.length, (board.rack.filter fun t => t.isBlank).length⟩

/-! ## The second (strict, points-carrying) Scrabble normalizer variant -/

namespace Strict

/-- A rack tile of the strict variant, additionally carrying `points`. -/
structure RackTileP : Type where
  letter : Option String
  points : Int
  isBlank : Bool
deriving DecidableEq, Repr

/-- The per-tile body of the strict variant's rack loop: `points` must be an
integer in `[0,10]`; a string `letter` that does not reduce to a single `A-Z`
character rejects the board; blanks must have `null` letter and 0 points;
non-blanks must have a letter. -/
def normRackTile (tile : Json) : Except ErrInfo RackTileP :=
  match tile with
  | Json.obj fs =>
    let isB := match getField fs "isBlank" with
      | some (Json.bool true) => true
      | _ => false
    match jsNumber (getField fs "points") with
    | some p =>
      if 0 ≤ p ∧ p ≤ 10 then
        match getField fs "letter" with
        | none => finish isB p none
        | some Json.null => finish isB p none
        | some (Json.str s) =>
          let t := normStr s
          if isSingleAZ t then finish isB p (some t)
          else
            Except.error ⟨"MODEL_OUTPUT_SCHEMA_INVALID",
              "rack tile letter must be a single A-Z character."⟩
        | some _ =>
          Except.error ⟨"MODEL_OUTPUT_SCHEMA_INVALID", "rack tile letter must be a string or null."⟩
      else
        Except.error ⟨"MODEL_OUTPUT_SCHEMA_INVALID",
          "rack tile points must be an integer between 0 and 10."⟩
    | none =>
      Except.error ⟨"MODEL_OUTPUT_SCHEMA_INVALID",
        "rack tile points must be an integer between 0 and 10."⟩
  | _ => Except.error ⟨"MODEL_OUTPUT_SCHEMA_INVALID", "rack tiles must be objects."⟩
where
  /-- The blank/non-blank consistency checks at the end of the loop body. -/
  finish (isB : Bool) (p : Int) (letter : Option String) : Except ErrInfo RackTileP :=
    if isB then
      if letter ≠ none ∨ p ≠ 0 then
        Except.error ⟨"MODEL_OUTPUT_SCHEMA_INVALID",
          "blank tiles must have null letter and 0 points."⟩
      else Except.ok ⟨letter, p, isB⟩
    else
      if letter = none then
        Except.error ⟨"MODEL_OUTPUT_SCHEMA_INVALID", "non-blank tiles must have a letter."⟩
      else Except.ok ⟨letter, p, isB⟩

/-- The rack loop of the strict variant. -/
def normRackList : List Json → Except ErrInfo (List RackTileP)
  | [] => Except.ok []
  | t :: ts => do
    let tile ← normRackTile t
    let rest ← normRackList ts
    Except.ok (tile :: rest)

/-- `normalizeScrabbleRack` of the strict variant. -/
def normalizeScrabbleRack (rackRaw : Json) : Except ErrInfo (List RackTileP) :=
  match rackRaw with
  | Json.arr xs =>
    if 7 < xs.length then
      Except.error ⟨"MODEL_OUTPUT_SCHEMA_INVALID", "rack must contain 0 to 7 tiles."⟩
    else normRackList xs
  | _ => Except.error ⟨"MODEL_OUTPUT_SCHEMA_INVALID", "rack must be an array."⟩

end Strict

/-! ## The schema router (`boardState/index.js`) -/

/-- The board union produced by the routed parser. -/
inductive AnyBoard : Type where
  | ws : WordscapesBoard → AnyBoard
  | sc : ScrabbleBoard → AnyBoard
deriving DecidableEq, Repr

/-- The success payload of the routed `parseModelOutput`: on success the JS
code returns `{ ...result, rawPayload: parsed }`, i.e. the board plus the
original decoded, unvalidated object. -/
structure ParseOk : Type where
  board : AnyBoard
  rawPayload : Json
deriving Repr

/-- `parseModelOutput` from `boardState/index.js`, starting from the decoded
JSON value (the string-level fence stripping, `{…}` shape pre-check and
`JSON.parse` are not modelled; their only outputs are `MODEL_OUTPUT_NOT_JSON`
errors). -/
def parseModelOutput (parsed : Json) : Except ErrInfo ParseOk :=
  if isPlainObject parsed then
    match parsed with
    | Json.obj fields =>
      match getField fields "schema", getField fields "game" with
      | some (Json.str schema), some (Json.str game) =>
        if schema = "WORDVINDER_BOARD_EXTRACT_V4" ∧ game = "WORDSCAPES" then
          (parseWordscapes fields).map fun b => ⟨AnyBoard.ws b, parsed⟩
        else if schema = "WORDVINDER_SCRABBLE_EXTRACT_V1" ∧ game = "SCRABBLE" then
          (parseScrabble fields).map fun b => ⟨AnyBoard.sc b, parsed⟩
        else
          Except.error ⟨"MODEL_OUTPUT_SCHEMA_INVALID", "Model output JSON has an unsupported schema."⟩
      | _, _ =>
        Except.error ⟨"MODEL_OUTPUT_SCHEMA_INVALID", "Model output JSON is missing required fields."⟩
    | _ => Except.error ⟨"MODEL_OUTPUT_SCHEMA_INVALID", "Model output JSON is not an object."⟩
  else Except.error ⟨"MODEL_OUTPUT_SCHEMA_INVALID", "Model output JSON is not an object."⟩

/-! ## The legacy single-schema parser (`boardState.js`) -/

namespace Legacy

/-- The legacy board shape. -/
structure LSlot : Type where
  length : Int
  count : Int
deriving DecidableEq, Repr

structure LegacyBoard : Type where
  letters : List String
  solvedWords : List String
  unsolvedSlots : List LSlot
deriving DecidableEq, Repr

/-- The `Map` step of `mergeUnsolvedSlots`. -/
def addSlot : List LSlot → LSlot → List LSlot
  | [], e => [e]
  | a :: rest, e =>
    if a.length = e.length then ⟨a.length, a.count + e.count⟩ :: rest
    else a :: addSlot rest e

instance : DecidableRel fun (a b : LSlot) => a.length ≤ b.length :=
  fun a b => inferInstanceAs (Decidable (a.length ≤ b.length))

/-- `mergeUnsolvedSlots` from `boardState.js`. -/
def mergeUnsolvedSlots (slots : List LSlot) : List LSlot :=
  List.insertionSort (fun a b => a.length ≤ b.length) (slots.foldl addSlot [])

/-- The letters loop of the legacy parser. -/
def legacyLetters : List Json → Except ErrInfo (List String)
  | [] => Except.ok []
  | x :: xs =>
    match x with
    | Json.str s =>
      let t := normStr s
      if isSingleAZ t then do
        let rest ← legacyLetters xs
        Except.ok (t :: rest)
      else
        Except.error ⟨"MODEL_OUTPUT_SCHEMA_INVALID", "letters must contain single A-Z characters."⟩
    | _ =>
      Except.error ⟨"MODEL_OUTPUT_SCHEMA_INVALID", "letters must contain single A-Z characters."⟩

/-- The solvedWords loop of the legacy parser: each word must be an uppercase
alphabetic word of length at least 2 after normalization. -/
def legacySolved : List Json → Except ErrInfo (List String)
  | [] => Except.ok []
  | x :: xs =>
    match x with
    | Json.str s =>
      let t := normStr s
      if isWordAZ t ∧ 2 ≤ t.data.length then do
        let rest ← legacySolved xs
        Except.ok (t :: rest)
      else
        Except.error ⟨"MODEL_OUTPUT_SCHEMA_INVALID",
          "solvedWords must be uppercase alphabetic words (length >= 2)."⟩
    | _ =>
      Except.error ⟨"MODEL_OUTPUT_SCHEMA_INVALID",
        "solvedWords must be uppercase alphabetic words (length >= 2)."⟩

/-- The unsolvedSlots loop of the legacy parser (`Math.trunc` is the identity
on the integers `jsNumber` can produce). -/
def legacySlots : List Json → Except ErrInfo (List LSlot)
  | [] => Except.ok []
  | x :: xs =>
    match x with
    | Json.obj fs =>
      match jsNumber (getField fs "length"), jsNumber (getField fs "count") with
      | some L, some c =>
        if 3 ≤ L ∧ L ≤ 12 then
          if 1 ≤ c ∧ c ≤ 20 then do
            let rest ← legacySlots xs
            Except.ok (⟨L, c⟩ :: rest)
          else
            Except.error ⟨"MODEL_OUTPUT_SCHEMA_INVALID",
              "unsolvedSlots count must be an integer between 1 and 20."⟩
        else
          Except.error ⟨"MODEL_OUTPUT_SCHEMA_INVALID",
            "unsolvedSlots length must be an integer between 3 and 12."⟩
      | _, _ =>
        Except.error ⟨"MODEL_OUTPUT_SCHEMA_INVALID",
          "unsolvedSlots length and count must be numbers."⟩
    | _ =>
      Except.error ⟨"MODEL_OUTPUT_SCHEMA_INVALID", "unsolvedSlots entries must be objects."⟩

/-- Everything in the legacy `parseModelOutput` before the suspicious-word
scan: structural validation producing the deduplicated letters, the validated
solved words and the validated unsolved slots. -/
def structuralCore (parsed : Json) : Except ErrInfo (List String × List String × List LSlot) :=
  match parsed with
  | Json.obj fs =>
    let keys := fs.map Prod.fst
    if keys.length = 3 ∧ ("letters" ∈ keys ∧ "solvedWords" ∈ keys ∧ "unsolvedSlots" ∈ keys) then
      match getField fs "letters", getField fs "solvedWords", getField fs "unsolvedSlots" with
      | some (Json.arr lettersRaw), some (Json.arr solvedRaw), some (Json.arr unsolvedRaw) =>
        if lettersRaw.length < 5 ∨ 8 < lettersRaw.length then
          Except.error ⟨"MODEL_OUTPUT_SCHEMA_INVALID", "letters must contain 5 to 8 items."⟩
        else do
          let letters ← legacyLetters lettersRaw
          let solvedWords ← legacySolved solvedRaw
          let unsolvedSlots ← legacySlots unsolvedRaw
          let dedupedLetters := dedupePreserveOrder letters
          if dedupedLetters.length < 5 then
            Except.error ⟨"MODEL_OUTPUT_SCHEMA_INVALID",
              "letters must contain at least 5 unique characters."⟩
          else Except.ok (dedupedLetters, dedupePreserveOrder solvedWords, unsolvedSlots)
      | _, _, _ =>
        Except.error ⟨"MODEL_OUTPUT_SCHEMA_INVALID", "Model output JSON fields must be arrays."⟩
    else
      Except.error ⟨"MODEL_OUTPUT_SCHEMA_INVALID",
        "Model output JSON must contain only letters, solvedWords, unsolvedSlots."⟩
  | _ => Except.error ⟨"MODEL_OUTPUT_SCHEMA_INVALID", "Model output JSON is not an object."⟩

/-- `parseModelOutput` from `boardState.js`, from the decoded value: the
structural stage above, then the suspicious-word scan over the deduplicated
solved words, then merging of the unsolved slots. -/
def parseModelOutput (parsed : Json) : Except ErrInfo LegacyBoard := do
  let (dedupedLetters, dedupedSolved, unsolvedSlots) ← structuralCore parsed
  match dedupedSolved.find? isSuspiciousWord with
  | some w =>
    Except.error ⟨"MODEL_OUTPUT_SUSPICIOUS", "Suspicious word detected: " ++ w⟩
  | none =>
    Except.ok ⟨dedupedLetters, dedupedSolved, mergeUnsolvedSlots unsolvedSlots⟩

end Legacy

/-! ## Basic lemmas: `Except`, characters, strings, dedup -/

theorem except_bind_ok_iff {α β : Type} {e : Except ErrInfo α} {f : α → Except ErrInfo β} {b : β} :
    (e >>= f) = Except.ok b ↔ ∃ a, e = Except.ok a ∧ f a = Except.ok b := by
  cases e with
  | ok a =>
    constructor
    · intro h; exact ⟨a, rfl, h⟩
    · rintro ⟨a', ha', hf⟩; cases ha'; exact hf
  | error err =>
    constructor
    · intro h; exact absurd h (by simp [Bind.bind, Except.bind])
    · rintro ⟨a', ha', _⟩; cases ha'

theorem except_map_ok_iff {α β : Type} {e : Except ErrInfo α} {f : α → β} {b : β} :
    e.map f = Except.ok b ↔ ∃ a, e = Except.ok a ∧ f a = b := by
  cases e with
  | ok a =>
    constructor
    · intro h; exact ⟨a, rfl, by simpa [Except.map] using h⟩
    · rintro ⟨a', ha', hf⟩; cases ha'; simpa [Except.map] using hf
  | error err =>
    constructor
    · intro h; exact absurd h (by simp [Except.map])
    · rintro ⟨a', ha', _⟩; cases ha'

theorem not_isWSChar_of_isAZChar {c : Char} (h : isAZChar c = true) : isWSChar c = false := by
  simp only [isAZChar, Bool.and_eq_true, decide_eq_true_eq] at h
  simp only [isWSChar, Bool.or_eq_false_iff, beq_eq_false_iff_ne, ne_eq]
  omega

theorem not_isLowAZChar_of_isAZChar {c : Char} (h : isAZChar c = true) : isLowAZChar c = false := by
  simp only [isAZChar, Bool.and_eq_true, decide_eq_true_eq] at h
  simp only [isLowAZChar, Bool.and_eq_false_iff, decide_eq_false_iff_not, not_le]
  omega

theorem upChar_eq_self_of_isAZChar {c : Char} (h : isAZChar c = true) : upChar c = c := by
  simp [upChar, not_isLowAZChar_of_isAZChar h]

theorem dropWhile_eq_self_of_all {p : Char → Bool} {l : List Char}
    (h : ∀ c ∈ l, p c = false) : l.dropWhile p = l := by
  cases l with
  | nil => rfl
  | cons c cs => simp [List.dropWhile_cons, h c (by simp)]

theorem trimCharList_eq_self_of_all {l : List Char} (h : ∀ c ∈ l, isWSChar c = false) :
    trimCharList l = l := by
  unfold trimCharList
  rw [dropWhile_eq_self_of_all h, dropWhile_eq_self_of_all (by simpa using h), List.reverse_reverse]

theorem string_mk_data (s : String) : String.mk s.data = s := rfl

/-- A string that already matches `^[A-Z]+$` is fixed by `trim().toUpperCase()`. -/
theorem normStr_eq_self_of_isWordAZ {s : String} (h : isWordAZ s = true) : normStr s = s := by
  simp only [isWordAZ, Bool.and_eq_true, List.all_eq_true, Bool.not_eq_true'] at h
  unfold normStr
  rw [trimCharList_eq_self_of_all fun c hc => not_isWSChar_of_isAZChar (h.2 c hc)]
  rw [List.map_congr_left fun c hc => upChar_eq_self_of_isAZChar (h.2 c hc)]
  simp

theorem isWordAZ_of_isSingleAZ {s : String} (h : isSingleAZ s = true) : isWordAZ s = true := by
  unfold isSingleAZ at h
  unfold isWordAZ
  cases hd : s.data with
  | nil => rw [hd] at h; exact absurd h (by simp)
  | cons c cs =>
    cases cs with
    | nil =>
      rw [hd] at h
      have hc : isAZChar c = true := h
      simp [hd, hc]
    | cons c' cs' => rw [hd] at h; exact absurd h (by simp)

/-- A string that already matches `^[A-Z]$` is fixed by `trim().toUpperCase()`. -/
theorem normStr_eq_self_of_isSingleAZ {s : String} (h : isSingleAZ s = true) : normStr s = s :=
  normStr_eq_self_of_isWordAZ (isWordAZ_of_isSingleAZ h)

/-! ## Lemmas about `dedupePreserveOrder` -/

theorem dedupeGo_sublist {α : Type} [DecidableEq α] (seen : List α) (l : List α) :
    List.Sublist (dedupeGo seen l) l := by
  induction l generalizing seen with
  | nil => simp [dedupeGo]
  | cons x xs ih =>
    by_cases hx : x ∈ seen
    · simp only [dedupeGo, if_pos hx]
      exact (ih seen).trans (List.sublist_cons_self x xs)
    · simp only [dedupeGo, if_neg hx]
      exact (ih (x :: seen)).cons₂ x

theorem mem_of_mem_dedupeGo {α : Type} [DecidableEq α] {seen l : List α} {x : α}
    (h : x ∈ dedupeGo seen l) : x ∈ l ∧ x ∉ seen := by
  induction l generalizing seen with
  | nil => simp [dedupeGo] at h
  | cons y ys ih =>
    by_cases hy : y ∈ seen
    · simp only [dedupeGo, if_pos hy] at h
      have := ih h
      exact ⟨List.mem_cons_of_mem y this.1, this.2⟩
    · simp only [dedupeGo, if_neg hy] at h
      rcases List.mem_cons.1 h with rfl | hmem
      · exact ⟨List.mem_cons_self x ys, hy⟩
      · have := ih hmem
        refine ⟨List.mem_cons_of_mem y this.1, fun hs => this.2 (List.mem_cons_of_mem y hs)⟩

theorem dedupeGo_nodup {α : Type} [DecidableEq α] (seen : List α) (l : List α) :
    (dedupeGo seen l).Nodup := by
  induction l generalizing seen with
  | nil => simp [dedupeGo]
  | cons x xs ih =>
    by_cases hx : x ∈ seen
    · simpa only [dedupeGo, if_pos hx] using ih seen
    · simp only [dedupeGo, if_neg hx]
      refine List.nodup_cons.2 ⟨fun hmem => ?_, ih (x :: seen)⟩
      exact (mem_of_mem_dedupeGo hmem).2 (List.mem_cons_self x seen)

theorem dedupeGo_eq_self {α : Type} [DecidableEq α] {seen l : List α}
    (hn : l.Nodup) (hs : ∀ x ∈ l, x ∉ seen) : dedupeGo seen l = l := by
  induction l generalizing seen with
  | nil => rfl
  | cons x xs ih =>
    have hx : x ∉ seen := hs x (List.mem_cons_self x xs)
    simp only [dedupeGo, if_neg hx]
    refine congrArg (x :: ·) (ih (List.nodup_cons.1 hn).2 fun y hy => ?_)
    intro hmem
    rcases List.mem_cons.1 hmem with rfl | hmem'
    · exact (List.nodup_cons.1 hn).1 hy
    · exact hs y (List.mem_cons_of_mem x hy) hmem'

theorem dedupePreserveOrder_nodup {α : Type} [DecidableEq α] (l : List α) :
    (dedupePreserveOrder l).Nodup :=
  dedupeGo_nodup [] l

theorem dedupePreserveOrder_sublist {α : Type} [DecidableEq α] (l : List α) :
    List.Sublist (dedupePreserveOrder l) l :=
  dedupeGo_sublist [] l

theorem dedupePreserveOrder_eq_self {α : Type} [DecidableEq α] {l : List α} (hn : l.Nodup) :
    dedupePreserveOrder l = l :=
  dedupeGo_eq_self hn (by simp)

theorem mem_of_mem_dedupePreserveOrder {α : Type} [DecidableEq α] {l : List α} {x : α}
    (h : x ∈ dedupePreserveOrder l) : x ∈ l :=
  (mem_of_mem_dedupeGo h).1

/-! ## Sorting infrastructure -/

instance : IsTotal MEntry fun a b => a.length ≤ b.length :=
  ⟨fun a b => le_total a.length b.length⟩

instance : IsTrans MEntry fun a b => a.length ≤ b.length :=
  ⟨fun _ _ _ h h' => le_trans h h'⟩

instance : IsTotal SolvedEntry fun a b => a.length ≤ b.length :=
  ⟨fun a b => le_total a.length b.length⟩

instance : IsTrans SolvedEntry fun a b => a.length ≤ b.length :=
  ⟨fun _ _ _ h h' => le_trans h h'⟩

instance : IsTotal (Int × List String) fun a b => a.1 ≤ b.1 :=
  ⟨fun a b => le_total a.1 b.1⟩

instance : IsTrans (Int × List String) fun a b => a.1 ≤ b.1 :=
  ⟨fun _ _ _ h h' => le_trans h h'⟩

instance : IsTotal WLEntryI wlLe := ⟨fun a b => by
  unfold wlLe
  rcases lt_trichotomy a.length b.length with h | h | h
  · exact Or.inl (Or.inl h)
  · rcases le_total a.index b.index with hi | hi
    · exact Or.inl (Or.inr ⟨h, hi⟩)
    · exact Or.inr (Or.inr ⟨h.symm, hi⟩)
  · exact Or.inr (Or.inl h)⟩

instance : IsTrans WLEntryI wlLe := ⟨fun a b c hab hbc => by
  unfold wlLe at *
  rcases hab with h1 | ⟨h1, h1'⟩
  · rcases hbc with h2 | ⟨h2, _⟩
    · exact Or.inl (h1.trans h2)
    · exact Or.inl (lt_of_lt_of_eq h1 h2)
  · rcases hbc with h2 | ⟨h2, h2'⟩
    · exact Or.inl (lt_of_eq_of_lt h1 h2)
    · exact Or.inr ⟨h1.trans h2, h1'.trans h2'⟩⟩

/-- An ≤-sorted list whose integer keys are distinct is strictly sorted on
its keys. -/
theorem pairwise_lt_of_sorted_nodup {α : Type} (key : α → Int) {l : List α}
    (hs : l.Pairwise fun a b => key a ≤ key b) (hn : (l.map key).Nodup) :
    (l.map key).Pairwise (· < ·) := by
  have hn' : l.Pairwise fun a b => key a ≠ key b := List.pairwise_map.1 hn
  exact List.pairwise_map.2 ((hs.and hn').imp fun h => lt_of_le_of_ne h.1 h.2)

/-! ## Characterization of `mergeMissingByLength` -/

/-- First-match association lookup by entry length. -/
def lookupLen : List MEntry → Int → Option (Option Int)
  | [], _ => none
  | e :: rest, L => if e.length = L then some e.count else lookupLen rest L

/-- The raw entries sharing a given length, in order. -/
def entriesWithLength (es : List MEntry) (L : Int) : List MEntry :=
  es.filter fun e => decide (e.length = L)

/-- Modelled from the spec's words (§3 invariants): the merged count of a
group of contributing counts is `null` if any contributor is `null`, else
their sum. -/
def specMergeCount (cs : List (Option Int)) : Option Int :=
  if none ∈ cs then none else some (cs.filterMap id).sum

/-- One `Map` update of the count stored under a key. -/
def addStep (o : Option (Option Int)) (c : Option Int) : Option Int :=
  match o with
  | none => c
  | some x => combineCount x c

/-- Abstract state of the lookup under a key after folding a batch of
counts. -/
def mergedLookup (o : Option (Option Int)) (cs : List (Option Int)) : Option (Option Int) :=
  match o, cs with
  | some c, cs => some (cs.foldl combineCount c)
  | none, [] => none
  | none, c :: cs => some (cs.foldl combineCount c)

theorem mergedLookup_cons (o : Option (Option Int)) (c : Option Int) (cs : List (Option Int)) :
    mergedLookup o (c :: cs) = mergedLookup (some (addStep o c)) cs := by
  cases o <;> rfl

theorem lookupLen_addMerge (acc : List MEntry) (e : MEntry) (L : Int) :
    lookupLen (addMerge acc e) L =
      if e.length = L then some (addStep (lookupLen acc L) e.count) else lookupLen acc L := by
  induction acc with
  | nil => by_cases h : e.length = L <;> simp [addMerge, lookupLen, h, addStep]
  | cons a rest ih =>
    by_cases ha : a.length = e.length
    · by_cases hL : e.length = L
      · have haL : a.length = L := ha.trans hL
        simp [addMerge, ha, lookupLen, haL, hL, addStep]
      · have haL : ¬ a.length = L := fun hc => hL (ha.symm.trans hc)
        simp [addMerge, ha, lookupLen, haL, hL]
    · by_cases haL : a.length = L
      · have hL : ¬ e.length = L := fun hc => ha (haL.trans hc.symm)
        have hLe : ¬ L = e.length := fun hc => hL hc.symm
        simp [addMerge, ha, lookupLen, haL, hL, hLe]
      · simp [addMerge, ha, lookupLen, haL, ih]

theorem lookupLen_foldl (es : List MEntry) (acc : List MEntry) (L : Int) :
    lookupLen (es.foldl addMerge acc) L =
      mergedLookup (lookupLen acc L) ((entriesWithLength es L).map MEntry.count) := by
  induction es generalizing acc with
  | nil => cases h : lookupLen acc L <;> simp [entriesWithLength, mergedLookup, h]
  | cons e es ih =>
    rw [List.foldl_cons, ih (addMerge acc e), lookupLen_addMerge]
    by_cases hL : e.length = L
    · have hfe : entriesWithLength (e :: es) L = e :: entriesWithLength es L := by
        simp [entriesWithLength, List.filter_cons, hL]
      rw [if_pos hL, hfe, List.map_cons, mergedLookup_cons]
    · have hfe : entriesWithLength (e :: es) L = entriesWithLength es L := by
        simp [entriesWithLength, List.filter_cons, hL]
      rw [if_neg hL, hfe]

theorem foldl_combineCount_spec (cs : List (Option Int)) (c : Option Int) :
    cs.foldl combineCount c = specMergeCount (c :: cs) := by
  induction cs generalizing c with
  | nil =>
    cases c with
    | none => simp [specMergeCount]
    | some m => simp [specMergeCount]
  | cons x cs ih =>
    rw [List.foldl_cons, ih]
    cases c with
    | none => simp [specMergeCount, combineCount]
    | some m =>
      cases x with
      | none => simp [specMergeCount, combineCount]
      | some n =>
        simp only [combineCount, specMergeCount, List.mem_cons, List.filterMap_cons]
        by_cases hmem : none ∈ cs
        · simp [hmem]
        · simp only [hmem, or_false, if_neg, reduceCtorEq, false_or, if_false]
          simp [List.sum_cons]
          omega

theorem addMerge_map_length (acc : List MEntry) (e : MEntry) :
    (addMerge acc e).map MEntry.length =
      if e.length ∈ acc.map MEntry.length then acc.map MEntry.length
      else acc.map MEntry.length ++ [e.length] := by
  induction acc with
  | nil => simp [addMerge]
  | cons a rest ih =>
    by_cases ha : a.length = e.length
    · simp [addMerge, ha]
    · have hne : ¬ e.length = a.length := fun hc => ha hc.symm
      by_cases hm : e.length ∈ rest.map MEntry.length
      · simp [addMerge, ha, ih, hne, hm]
      · simp [addMerge, ha, ih, hne, hm]

theorem foldl_addMerge_nodup (es : List MEntry) (acc : List MEntry)
    (h : (acc.map MEntry.length).Nodup) :
    ((es.foldl addMerge acc).map MEntry.length).Nodup := by
  induction es generalizing acc with
  | nil => exact h
  | cons e es ih =>
    rw [List.foldl_cons]
    refine ih (addMerge acc e) ?_
    rw [addMerge_map_length]
    by_cases hmem : e.length ∈ acc.map MEntry.length
    · simpa [hmem] using h
    · simp [hmem, List.nodup_append, h]

theorem lookupLen_eq_of_mem {l : List MEntry} (hn : (l.map MEntry.length).Nodup)
    {e : MEntry} (he : e ∈ l) : lookupLen l e.length = some e.count := by
  induction l with
  | nil => cases he
  | cons a rest ih =>
    rcases List.mem_cons.1 he with rfl | hmem
    · simp [lookupLen]
    · have hne : ¬ a.length = e.length := by
        intro hc
        have : e.length ∈ rest.map MEntry.length := List.mem_map_of_mem MEntry.length hmem
        exact (List.nodup_cons.1 hn).1 (hc ▸ this)
      simp only [lookupLen, if_neg hne]
      exact ih (List.nodup_cons.1 hn).2 hmem

theorem lookupLen_some_mem {l : List MEntry} {L : Int} {c : Option Int}
    (h : lookupLen l L = some c) : ∃ m ∈ l, m.length = L ∧ m.count = c := by
  induction l with
  | nil => cases h
  | cons a rest ih =>
    by_cases ha : a.length = L
    · simp only [lookupLen, if_pos ha, Option.some.injEq] at h
      exact ⟨a, List.mem_cons_self a rest, ha, h⟩
    · simp only [lookupLen, if_neg ha] at h
      obtain ⟨m, hm, hml, hmc⟩ := ih h
      exact ⟨m, List.mem_cons_of_mem a hm, hml, hmc⟩

theorem addMerge_of_not_mem {acc : List MEntry} {e : MEntry}
    (h : e.length ∉ acc.map MEntry.length) : addMerge acc e = acc ++ [e] := by
  induction acc with
  | nil => rfl
  | cons a rest ih =>
    simp only [List.map_cons, List.mem_cons] at h
    push_neg at h
    have hne : ¬ a.length = e.length := fun hc => h.1 hc.symm
    simp [addMerge, hne, ih h.2]

theorem foldl_addMerge_eq_append (es : List MEntry) (acc : List MEntry)
    (hn : (acc.map MEntry.length ++ es.map MEntry.length).Nodup) :
    es.foldl addMerge acc = acc ++ es := by
  induction es generalizing acc with
  | nil => simp
  | cons e es ih =>
    rw [List.foldl_cons]
    have hmem : e.length ∉ acc.map MEntry.length := by
      intro hc
      rw [List.nodup_append] at hn
      exact hn.2.2 hc (by simp)
    rw [addMerge_of_not_mem hmem]
    have : ((acc ++ [e]).map MEntry.length ++ es.map MEntry.length).Nodup := by
      have := hn
      rw [List.map_cons, ← List.singleton_append, ← List.append_assoc] at this
      simpa using this
    rw [ih (acc ++ [e]) this, List.append_assoc]
    rfl

/-- The lengths of the merged list are strictly increasing (sorted ascending,
at most one entry per length). -/
theorem mergeMissingByLength_lengths_lt (es : List MEntry) :
    ((mergeMissingByLength es).map MEntry.length).Pairwise (· < ·) := by
  have hsorted : (mergeMissingByLength es).Pairwise fun a b => a.length ≤ b.length :=
    List.sorted_insertionSort _ _
  have hperm : List.Perm (mergeMissingByLength es) (es.foldl addMerge []) :=
    List.perm_insertionSort _ _
  have hn : ((es.foldl addMerge []).map MEntry.length).Nodup :=
    foldl_addMerge_nodup es [] (by simp)
  have hn' : ((mergeMissingByLength es).map MEntry.length).Nodup :=
    ((hperm.map MEntry.length).nodup_iff).2 hn
  exact pairwise_lt_of_sorted_nodup MEntry.length hsorted hn'

/-- Each merged entry's count is the null-poisoned sum of the counts of the
raw entries sharing its length (and at least one such raw entry exists). -/
theorem mergeMissingByLength_count {es : List MEntry} {m : MEntry}
    (hm : m ∈ mergeMissingByLength es) :
    entriesWithLength es m.length ≠ [] ∧
      m.count = specMergeCount ((entriesWithLength es m.length).map MEntry.count) := by
  have hmem : m ∈ es.foldl addMerge [] := (List.mem_insertionSort _).1 hm
  have hn : ((es.foldl addMerge []).map MEntry.length).Nodup :=
    foldl_addMerge_nodup es [] (by simp)
  have hlook : lookupLen (es.foldl addMerge []) m.length = some m.count :=
    lookupLen_eq_of_mem hn hmem
  rw [lookupLen_foldl] at hlook
  cases hcs : (entriesWithLength es m.length).map MEntry.count with
  | nil => rw [hcs] at hlook; exact absurd hlook (by simp [lookupLen, mergedLookup])
  | cons c cs =>
    rw [hcs] at hlook
    constructor
    · intro hnil; rw [hnil] at hcs; simp at hcs
    · have hfold : cs.foldl combineCount c = m.count := by
        simpa [lookupLen, mergedLookup] using hlook
      rw [← hfold, foldl_combineCount_spec, ← hcs]

/-- Every raw length survives into the merged output. -/
theorem mergeMissingByLength_mem_length {es : List MEntry} {e : MEntry} (he : e ∈ es) :
    ∃ m ∈ mergeMissingByLength es, m.length = e.length := by
  have hne : (entriesWithLength es e.length).map MEntry.count ≠ [] := by
    simp only [ne_eq, List.map_eq_nil_iff]
    intro hnil
    have : e ∈ entriesWithLength es e.length := by
      simp [entriesWithLength, List.mem_filter, he]
    rw [hnil] at this
    cases this
  have hlook := lookupLen_foldl es [] e.length
  cases hcs : (entriesWithLength es e.length).map MEntry.count with
  | nil => exact absurd hcs hne
  | cons c cs =>
    rw [hcs] at hlook
    simp only [lookupLen, mergedLookup] at hlook
    obtain ⟨m, hm, hml, _⟩ := lookupLen_some_mem hlook
    exact ⟨m, (List.mem_insertionSort _).2 hm, hml⟩

/-! ## Claim C2: `missingByLength` merging -/

/-- C2: for every accepted Wordscapes `missingByLength` input, the output has
at most one entry per length sorted strictly ascending, each output count is
the null-poisoned sum of the counts of the raw entries sharing its length,
every raw length survives, and the two concrete merge examples
(`{4,2}+{4,null} = {4,null}` and `{4,2}+{4,3} = {4,5}`) hold. -/
theorem c2_missing_merge :
    (∀ (xs : List Json) (ms : List MEntry),
        normalizeMissingByLength (Json.arr xs) = Except.ok ms →
        ((ms.map MEntry.length).Pairwise (· < ·)) ∧
        ∀ es, normalizeMissingEntries xs = Except.ok es →
          (∀ m ∈ ms, entriesWithLength es m.length ≠ [] ∧
              m.count = specMergeCount ((entriesWithLength es m.length).map MEntry.count)) ∧
          (∀ e ∈ es, ∃ m ∈ ms, m.length = e.length)) ∧
    mergeMissingByLength [⟨4, some 2⟩, ⟨4, none⟩] = [⟨4, none⟩] ∧
    mergeMissingByLength [⟨4, some 2⟩, ⟨4, some 3⟩] = [⟨4, some 5⟩] := by
  refine ⟨?_, rfl, rfl⟩
  intro xs ms h
  unfold normalizeMissingByLength at h
  obtain ⟨es₀, hes₀, hms⟩ := except_map_ok_iff.1 h
  subst hms
  refine ⟨mergeMissingByLength_lengths_lt es₀, ?_⟩
  intro es hes
  rw [hes₀] at hes
  cases hes
  exact ⟨fun m hm => mergeMissingByLength_count hm, fun e he => mergeMissingByLength_mem_length he⟩

/-- Raw input for the C2 witness: `[{length:4,count:2},{length:4,count:null}]`. -/
def c2xs : List Json :=
  [Json.obj [("length", Json.num 4), ("count", Json.num 2)],
   Json.obj [("length", Json.num 4), ("count", Json.null)]]

/-- Witness for C2 at a concrete input. -/
theorem c2_missing_merge_witness :
    (([(⟨4, none⟩ : MEntry)].map MEntry.length).Pairwise (· < ·)) ∧
    (∀ e ∈ [(⟨4, some 2⟩ : MEntry), ⟨4, none⟩], ∃ m ∈ [(⟨4, none⟩ : MEntry)], m.length = e.length) := by
  have h := c2_missing_merge.1 c2xs [⟨4, none⟩] rfl
  exact ⟨h.1, (h.2 [⟨4, some 2⟩, ⟨4, none⟩] rfl).2⟩

/-! ## Claim C5: Wordscapes summary -/

/-- Modelled from the spec's words (§4.6): the total is the sum of all counts,
except that it is `null` when any contributing count is `null`. -/
def specTotalRemaining (ms : List MEntry) : Option Int :=
  if none ∈ ms.map MEntry.count then none else some (ms.filterMap MEntry.count).sum

theorem totalRemainingLoop_spec (ms : List MEntry) (acc : Int) :
    totalRemainingLoop ms acc =
      if none ∈ ms.map MEntry.count then none
      else some (acc + (ms.filterMap MEntry.count).sum) := by
  induction ms generalizing acc with
  | nil => simp [totalRemainingLoop]
  | cons e es ih =>
    cases hc : e.count with
    | none => simp [totalRemainingLoop, hc]
    | some c =>
      rw [totalRemainingLoop, hc]
      show totalRemainingLoop es (acc + c) = _
      rw [ih]
      simp only [List.map_cons, List.mem_cons, List.filterMap_cons, hc]
      by_cases hmem : none ∈ es.map MEntry.count
      · simp [hmem]
      · have h1 : ¬ ((none : Option Int) = some c ∨ none ∈ es.map MEntry.count) := by simp [hmem]
        rw [if_neg hmem, if_neg h1, List.sum_cons]
        congr 1
        omega

/-- C5: the summary of every canonical Wordscapes board has `letters` joined
by single spaces, `remainingByLength` equal to `missingByLength` verbatim, and
`totalRemaining` the null-poisoned sum of the counts; in particular
`[{4,1},{5,null}]` yields `totalRemaining = null`. -/
theorem c5_wordscapes_summary :
    (∀ b : WordscapesBoard,
        buildWordscapesSummary b =
          ⟨String.intercalate " " b.letters, b.missingByLength,
            specTotalRemaining b.missingByLength⟩) ∧
    (buildWordscapesSummary ⟨["A", "B", "C", "D", "E"],
        [⟨4, some 1⟩, ⟨5, none⟩], [], [], []⟩).totalRemaining = none := by
  refine ⟨fun b => ?_, rfl⟩
  unfold buildWordscapesSummary specTotalRemaining
  rw [totalRemainingLoop_spec]
  simp

/-! ## Claim C7: top-level key allow-lists -/

/-- C7: any top-level key outside the per-game allow-list makes the game
normalizer reject the whole input with `MODEL_OUTPUT_SCHEMA_INVALID`. -/
theorem c7_unknown_keys :
    (∀ (fields : List (String × Json)) (k : String),
        k ∈ fields.map Prod.fst → k ∉ ALLOWED_TOP_LEVEL_KEYS_WORDSCAPES →
        parseWordscapes fields =
          Except.error ⟨"MODEL_OUTPUT_SCHEMA_INVALID", "Model output JSON contains unexpected keys."⟩) ∧
    (∀ (fields : List (String × Json)) (k : String),
        k ∈ fields.map Prod.fst → k ∉ ALLOWED_TOP_LEVEL_KEYS_SCRABBLE →
        parseScrabble fields =
          Except.error ⟨"MODEL_OUTPUT_SCHEMA_INVALID", "Model output JSON contains unexpected keys."⟩) := by
  constructor
  · intro fields k hk hnot
    have hmem : k ∈ (fields.map Prod.fst).filter
        fun k => !ALLOWED_TOP_LEVEL_KEYS_WORDSCAPES.contains k :=
      List.mem_filter.2 ⟨hk, by simpa using hnot⟩
    have hne : (fields.map Prod.fst).filter
        (fun k => !ALLOWED_TOP_LEVEL_KEYS_WORDSCAPES.contains k) ≠ [] :=
      List.ne_nil_of_mem hmem
    simp only [parseWordscapes]
    rw [if_pos hne]
  · intro fields k hk hnot
    have hmem : k ∈ (fields.map Prod.fst).filter
        fun k => !ALLOWED_TOP_LEVEL_KEYS_SCRABBLE.contains k :=
      List.mem_filter.2 ⟨hk, by simpa using hnot⟩
    have hne : (fields.map Prod.fst).filter
        (fun k => !ALLOWED_TOP_LEVEL_KEYS_SCRABBLE.contains k) ≠ [] :=
      List.ne_nil_of_mem hmem
    simp only [parseScrabble]
    rw [if_pos hne]

/-- An otherwise fully valid Wordscapes object carrying an extra `cheatCode`
key. -/
def c7wsFields : List (String × Json) :=
  [("schema", Json.str "WORDVINDER_BOARD_EXTRACT_V4"),
   ("game", Json.str "WORDSCAPES"),
   ("letters", Json.arr [Json.str "A", Json.str "B", Json.str "C", Json.str "D", Json.str "E"]),
   ("missingByLength", Json.arr []),
   ("cheatCode", Json.num 1)]

/-- An empty 15×15 Scrabble `board` object. -/
def emptyGridJson : Json :=
  Json.obj [("size", Json.num 15),
    ("tiles", Json.arr (List.replicate 15 (Json.arr (List.replicate 15 Json.null))))]

/-- An otherwise fully valid Scrabble object carrying an extra `cheatCode`
key. -/
def c7scFields : List (String × Json) :=
  [("schema", Json.str "WORDVINDER_SCRABBLE_EXTRACT_V1"),
   ("game", Json.str "SCRABBLE"),
   ("rack", Json.arr []),
   ("board", emptyGridJson),
   ("cheatCode", Json.num 1)]

/-- Witness for C7 at concrete inputs. -/
theorem c7_unknown_keys_witness :
    parseWordscapes c7wsFields =
      Except.error ⟨"MODEL_OUTPUT_SCHEMA_INVALID", "Model output JSON contains unexpected keys."⟩ ∧
    parseScrabble c7scFields =
      Except.error ⟨"MODEL_OUTPUT_SCHEMA_INVALID", "Model output JSON contains unexpected keys."⟩ :=
  ⟨c7_unknown_keys.1 c7wsFields "cheatCode" (by simp [c7wsFields]) (by decide),
   c7_unknown_keys.2 c7scFields "cheatCode" (by simp [c7scFields]) (by decide)⟩

/-! ## Claim C10: `rawPayload` on the routed success path -/

/-- C10: whenever the routed `parseModelOutput` succeeds (for either game),
the result additionally carries `rawPayload`, equal to the original decoded
unvalidated object. -/
theorem c10_rawPayload :
    ∀ (v : Json) (pk : ParseOk), parseModelOutput v = Except.ok pk → pk.rawPayload = v := by
  intro v pk h
  unfold parseModelOutput at h
  repeat' split at h
  all_goals
    first
      | cases h
      | (obtain ⟨b, -, hb⟩ := except_map_ok_iff.1 h
         rw [← hb])

/-- A minimal valid Wordscapes input for the C10 witness. -/
def c10v : Json :=
  Json.obj [("schema", Json.str "WORDVINDER_BOARD_EXTRACT_V4"),
    ("game", Json.str "WORDSCAPES"),
    ("letters", Json.arr [Json.str "A", Json.str "B", Json.str "C", Json.str "D", Json.str "E"]),
    ("missingByLength", Json.arr [])]

/-- Witness for C10 at a concrete input. -/
theorem c10_rawPayload_witness :
    (ParseOk.mk (AnyBoard.ws ⟨["A", "B", "C", "D", "E"], [], [], [], []⟩) c10v).rawPayload = c10v :=
  c10_rawPayload c10v ⟨AnyBoard.ws ⟨["A", "B", "C", "D", "E"], [], [], [], []⟩, c10v⟩ rfl

/-! ## Claim C4: blank tiles force `letter = null` (wired variant) -/

theorem normRackList_blank_null {xs : List Json} {rack : List RackTile}
    (h : normRackList xs = Except.ok rack) :
    List.Forall₂ (fun x t => ∀ fs, x = Json.obj fs →
      getField fs "isBlank" = some (Json.bool true) →
      t.isBlank = true ∧ t.letter = none) xs rack := by
  induction xs generalizing rack with
  | nil =>
    cases h
    exact List.Forall₂.nil
  | cons x xs ih =>
    simp only [normRackList, bind, Except.bind] at h
    cases htile : normRackTile x with
    | error e => rw [htile] at h; cases h
    | ok tile =>
      rw [htile] at h
      cases hrest : normRackList xs with
      | error e => rw [hrest] at h; cases h
      | ok rest =>
        rw [hrest] at h
        simp only [Except.ok.injEq] at h
        subst h
        refine List.Forall₂.cons ?_ (ih hrest)
        intro fs hfs hblank
        subst hfs
        simp only [normRackTile, hblank] at htile
        split at htile <;> (cases htile; try exact ⟨rfl, rfl⟩)

/-- C4: for every rack input accepted by the wired Scrabble normalizer, every
tile whose `isBlank` field is the literal boolean `true` appears in the output
with `isBlank = true` and `letter = null`, whatever its `letter` field said. -/
theorem c4_blank_forces_null :
    ∀ (xs : List Json) (rack : List RackTile),
      normalizeScrabbleRack (Json.arr xs) = Except.ok rack →
      List.Forall₂ (fun x t => ∀ fs, x = Json.obj fs →
        getField fs "isBlank" = some (Json.bool true) →
        t.isBlank = true ∧ t.letter = none) xs rack := by
  intro xs rack h
  simp only [normalizeScrabbleRack] at h
  by_cases hlen : 7 < xs.length
  · rw [if_pos hlen] at h; cases h
  · rw [if_neg hlen] at h; exact normRackList_blank_null h

/-- Witness for C4: `{isBlank:true, letter:"Q"}` normalizes to
`{isBlank:true, letter:null}`. -/
theorem c4_blank_forces_null_witness :
    List.Forall₂ (fun x t => ∀ fs, x = Json.obj fs →
        getField fs "isBlank" = some (Json.bool true) →
        t.isBlank = true ∧ t.letter = none)
      [Json.obj [("isBlank", Json.bool true), ("letter", Json.str "Q")]]
      [RackTile.mk none true] :=
  c4_blank_forces_null
    [Json.obj [("isBlank", Json.bool true), ("letter", Json.str "Q")]]
    [RackTile.mk none true] rfl

/-! ## Claim C3: non-reducing rack `letter` strings -/

/-- A Scrabble input whose single rack tile has `letter: "AB"` (a string that
does not reduce to one `A-Z` character), everything else valid. -/
def c3Fields : List (String × Json) :=
  [("schema", Json.str "WORDVINDER_SCRABBLE_EXTRACT_V1"),
   ("game", Json.str "SCRABBLE"),
   ("rack", Json.arr [Json.obj [("letter", Json.str "AB")]]),
   ("board", emptyGridJson)]

/-- The canonical board the wired normalizer produces for `c3Fields`: the bad
letter has silently degraded to `null`. -/
def degradedBoard : ScrabbleBoard :=
  ⟨[⟨none, false⟩], ⟨15, List.replicate 15 (List.replicate 15 none)⟩, []⟩

/-- C3 counterexample: the wired Scrabble normalizer does NOT reject a tile
whose `letter` is `"AB"`; it accepts the whole board with the tile's letter
degraded to `null`. -/
theorem c3_counterexample : parseScrabble c3Fields = Except.ok degradedBoard := rfl

theorem strict_finish_error_code {isB : Bool} {p : Int} {l : Option String} {e : ErrInfo}
    (h : Strict.normRackTile.finish isB p l = Except.error e) :
    e.code = "MODEL_OUTPUT_SCHEMA_INVALID" := by
  unfold Strict.normRackTile.finish at h
  split at h <;> split at h <;> (try cases h) <;> rfl

theorem strict_normRackTile_error_code {x : Json} {e : ErrInfo}
    (h : Strict.normRackTile x = Except.error e) :
    e.code = "MODEL_OUTPUT_SCHEMA_INVALID" := by
  unfold Strict.normRackTile at h
  repeat' split at h
  all_goals first
    | rfl
    | exact strict_finish_error_code h
    | ((cases h) <;> rfl)
    | (simp only [] at h
       split at h
       · exact strict_finish_error_code h
       · (cases h) <;> rfl)

theorem strict_normRackList_error_code {xs : List Json} {e : ErrInfo}
    (h : Strict.normRackList xs = Except.error e) :
    e.code = "MODEL_OUTPUT_SCHEMA_INVALID" := by
  induction xs with
  | nil => cases h
  | cons x xs ih =>
    simp only [Strict.normRackList, bind, Except.bind] at h
    cases htile : Strict.normRackTile x with
    | error e' =>
      rw [htile] at h
      cases h
      exact strict_normRackTile_error_code htile
    | ok tile =>
      rw [htile] at h
      cases hrest : Strict.normRackList xs with
      | error e' =>
        rw [hrest] at h
        cases h
        exact ih hrest
      | ok rest => rw [hrest] at h; cases h

theorem strict_normRackTile_rejects_bad_letter {fs : List (String × Json)} {s : String}
    (hl : getField fs "letter" = some (Json.str s)) (hbad : isSingleAZ (normStr s) = false) :
    ∃ e, Strict.normRackTile (Json.obj fs) = Except.error e ∧
      e.code = "MODEL_OUTPUT_SCHEMA_INVALID" := by
  cases hp : jsNumber (getField fs "points") with
  | none =>
    refine ⟨⟨"MODEL_OUTPUT_SCHEMA_INVALID",
      "rack tile points must be an integer between 0 and 10."⟩, ?_, rfl⟩
    simp [Strict.normRackTile, hp, hl]
  | some p =>
    by_cases hb : 0 ≤ p ∧ p ≤ 10
    · refine ⟨⟨"MODEL_OUTPUT_SCHEMA_INVALID",
        "rack tile letter must be a single A-Z character."⟩, ?_, rfl⟩
      simp [Strict.normRackTile, hp, hl, hb, hbad]
    · refine ⟨⟨"MODEL_OUTPUT_SCHEMA_INVALID",
        "rack tile points must be an integer between 0 and 10."⟩, ?_, rfl⟩
      simp [Strict.normRackTile, hp, hl, hb]

theorem strict_normRackList_rejects_bad_letter {xs : List Json} {fs : List (String × Json)}
    {s : String} (hx : Json.obj fs ∈ xs)
    (hl : getField fs "letter" = some (Json.str s)) (hbad : isSingleAZ (normStr s) = false) :
    ∃ e, Strict.normRackList xs = Except.error e ∧ e.code = "MODEL_OUTPUT_SCHEMA_INVALID" := by
  induction xs with
  | nil => cases hx
  | cons y ys ih =>
    rcases List.mem_cons.1 hx with rfl | hmem
    · obtain ⟨e, he, hcode⟩ := strict_normRackTile_rejects_bad_letter hl hbad
      refine ⟨e, ?_, hcode⟩
      simp only [Strict.normRackList, bind, Except.bind, he]
    · cases htile : Strict.normRackTile y with
      | error e' =>
        refine ⟨e', ?_, strict_normRackTile_error_code htile⟩
        simp only [Strict.normRackList, bind, Except.bind, htile]
      | ok tile =>
        obtain ⟨e, he, hcode⟩ := ih hmem
        refine ⟨e, ?_, hcode⟩
        simp only [Strict.normRackList, bind, Except.bind, htile, he]

theorem normRackList_degrades_bad_letter {xs : List Json} {rack : List RackTile}
    (h : normRackList xs = Except.ok rack) :
    List.Forall₂ (fun x t => ∀ fs s, x = Json.obj fs →
      getField fs "letter" = some (Json.str s) → isSingleAZ (normStr s) = false →
      t.letter = none) xs rack := by
  induction xs generalizing rack with
  | nil =>
    cases h
    exact List.Forall₂.nil
  | cons x xs ih =>
    simp only [normRackList, bind, Except.bind] at h
    cases htile : normRackTile x with
    | error e => rw [htile] at h; cases h
    | ok tile =>
      rw [htile] at h
      cases hrest : normRackList xs with
      | error e => rw [hrest] at h; cases h
      | ok rest =>
        rw [hrest] at h
        simp only [Except.ok.injEq] at h
        subst h
        refine List.Forall₂.cons ?_ (ih hrest)
        intro fs s hfs hl hbad
        subst hfs
        simp only [normRackTile, hl, hbad] at htile
        cases htile
        simp

/-- C3 amended: when a rack tile's `letter` is present as a string that does
not reduce to a single `A-Z` character, the strict (points-carrying)
normalizer variant rejects the whole board with
`MODEL_OUTPUT_SCHEMA_INVALID`, while the wired variant (`scrabble.js`)
accepts the board with the tile's `letter` degraded to `null`. -/
theorem c3_amended :
    (∀ (xs : List Json) (fs : List (String × Json)) (s : String),
        Json.obj fs ∈ xs → getField fs "letter" = some (Json.str s) →
        isSingleAZ (normStr s) = false →
        ∃ e, Strict.normalizeScrabbleRack (Json.arr xs) = Except.error e ∧
          e.code = "MODEL_OUTPUT_SCHEMA_INVALID") ∧
    (∀ (xs : List Json) (rack : List RackTile),
        normalizeScrabbleRack (Json.arr xs) = Except.ok rack →
        List.Forall₂ (fun x t => ∀ fs s, x = Json.obj fs →
          getField fs "letter" = some (Json.str s) → isSingleAZ (normStr s) = false →
          t.letter = none) xs rack) := by
  constructor
  · intro xs fs s hx hl hbad
    simp only [Strict.normalizeScrabbleRack]
    by_cases hlen : 7 < xs.length
    · exact ⟨⟨"MODEL_OUTPUT_SCHEMA_INVALID", "rack must contain 0 to 7 tiles."⟩,
        by rw [if_pos hlen], rfl⟩
    · obtain ⟨e, he, hcode⟩ := strict_normRackList_rejects_bad_letter hx hl hbad
      exact ⟨e, by rw [if_neg hlen]; exact he, hcode⟩
  · intro xs rack h
    simp only [normalizeScrabbleRack] at h
    by_cases hlen : 7 < xs.length
    · rw [if_pos hlen] at h; cases h
    · rw [if_neg hlen] at h; exact normRackList_degrades_bad_letter h

/-- Witness for C3 amended at concrete inputs. -/
theorem c3_amended_witness :
    (∃ e, Strict.normalizeScrabbleRack
        (Json.arr [Json.obj [("letter", Json.str "AB"), ("points", Json.num 3)]]) =
          Except.error e ∧ e.code = "MODEL_OUTPUT_SCHEMA_INVALID") ∧
    List.Forall₂ (fun x t => ∀ fs s, x = Json.obj fs →
        getField fs "letter" = some (Json.str s) → isSingleAZ (normStr s) = false →
        t.letter = none)
      [Json.obj [("letter", Json.str "AB")]] [RackTile.mk none false] :=
  ⟨c3_amended.1 [Json.obj [("letter", Json.str "AB"), ("points", Json.num 3)]]
      [("letter", Json.str "AB"), ("points", Json.num 3)] "AB" (by simp) rfl rfl,
   c3_amended.2 [Json.obj [("letter", Json.str "AB")]] [RackTile.mk none false] rfl⟩

/-! ## Claim C8: Scrabble summary rack counts -/

/-- C8 counterexample: a canonical board (output of the wired normalizer) with
one rack tile whose summary reports `rackCount = 0` — `rackCount` counts
rendered glyphs, not rack tiles. -/
theorem c8_counterexample :
    parseScrabble c3Fields = Except.ok degradedBoard ∧
    degradedBoard.rack.length = 1 ∧
    buildScrabbleSummary degradedBoard = ⟨"", 0, 0⟩ ∧
    (buildScrabbleSummary degradedBoard).rackCount ≠ degradedBoard.rack.length :=
  ⟨rfl, rfl, rfl, by decide⟩

/-- Modelled from the spec's words (§4.6): a blank tile renders as `_`, a
letter tile as its letter. -/
def specRackGlyph (t : RackTile) : String :=
  if t.isBlank then "_" else t.letter.getD ""

theorem filterMap_rackGlyph_eq_map {rack : List RackTile}
    (h : ∀ t ∈ rack, t.isBlank = false → t.letter ≠ none) :
    rack.filterMap rackGlyph = rack.map specRackGlyph := by
  induction rack with
  | nil => rfl
  | cons t ts ih =>
    have hglyph : rackGlyph t = some (specRackGlyph t) := by
      cases hb : t.isBlank with
      | true => simp [rackGlyph, specRackGlyph, hb]
      | false =>
        cases hl : t.letter with
        | none => exact absurd hl (h t (List.mem_cons_self t ts) hb)
        | some s => simp [rackGlyph, specRackGlyph, hb, hl]
    rw [List.filterMap_cons, hglyph, List.map_cons,
      ih fun t' ht' => h t' (List.mem_cons_of_mem t ht')]

/-- C8 amended: the summary renders blanks as `_` and letter tiles as their
letter in rack order, and `blankCount` is the number of blanks; `rackCount`
equals the number of rack tiles provided every non-blank tile carries a
letter (tiles with neither, as produced by the wired variant's letter
degradation, are skipped and not counted). -/
theorem c8_amended :
    ∀ b : ScrabbleBoard, (∀ t ∈ b.rack, t.isBlank = false → t.letter ≠ none) →
      buildScrabbleSummary b =
        ⟨String.join (b.rack.map specRackGlyph), b.rack.length,
          (b.rack.filter fun t => t.isBlank).length⟩ := by
  intro b h
  unfold buildScrabbleSummary
  rw [filterMap_rackGlyph_eq_map h]
  simp

/-- A canonical board whose every non-blank tile has a letter. -/
def c8Board : ScrabbleBoard :=
  ⟨[⟨some "Q", false⟩, ⟨none, true⟩], ⟨15, List.replicate 15 (List.replicate 15 none)⟩, []⟩

/-- Witness for C8 amended at a concrete board. -/
theorem c8_amended_witness :
    buildScrabbleSummary c8Board =
      ⟨String.join (c8Board.rack.map specRackGlyph), c8Board.rack.length,
        (c8Board.rack.filter fun t => t.isBlank).length⟩ :=
  c8_amended c8Board (by decide)

/-! ## Claim C6: `wordLists` slot leniency and derived solved words -/

/-- The words a slot list contributes to grouping (`if (!word) continue`
skips `null` and the falsy empty string). -/
def slotWords (ss : List (Option String)) : List String :=
  (ss.filterMap id).filter fun w => !w.data.isEmpty

/-- Modelled from the spec's words (§4.4 step 7): all surviving non-null slot
words of the entries with a given length, in entry order then slot order. -/
def specGatherWords : List WLEntry → Int → List String
  | [], _ => []
  | e :: es, L =>
    (if e.length = L then slotWords e.slots else []) ++ specGatherWords es L

/-- First-match association lookup on group keys. -/
def lookupGrp : List (Int × List String) → Int → Option (List String)
  | [], _ => none
  | g :: rest, L => if g.1 = L then some g.2 else lookupGrp rest L

/-- Extending a group's (possibly absent) word list by a batch of words. -/
def extGroup (o : Option (List String)) (ws : List String) : Option (List String) :=
  match ws with
  | [] => o
  | _ => some (o.getD [] ++ ws)

theorem extGroup_append (o : Option (List String)) (ws1 ws2 : List String) :
    extGroup o (ws1 ++ ws2) = extGroup (extGroup o ws1) ws2 := by
  cases ws1 with
  | nil => rfl
  | cons w ws1 =>
    cases ws2 with
    | nil => simp [extGroup]
    | cons v ws2 => simp [extGroup]

theorem lookupGrp_pushGroup (acc : List (Int × List String)) (L : Int) (w : String) (K : Int) :
    lookupGrp (pushGroup acc L w) K =
      if L = K then some ((lookupGrp acc K).getD [] ++ [w]) else lookupGrp acc K := by
  induction acc with
  | nil => by_cases h : L = K <;> simp [pushGroup, lookupGrp, h]
  | cons g rest ih =>
    obtain ⟨K', ws⟩ := g
    by_cases hK' : K' = L
    · subst hK'
      by_cases hLK : K' = K
      · subst hLK; simp [pushGroup, lookupGrp]
      · simp [pushGroup, lookupGrp, hLK]
    · by_cases hKK : K' = K
      · subst hKK
        have hLK : ¬ L = K' := fun hc => hK' hc.symm
        simp [pushGroup, lookupGrp, hK', hLK]
      · simp [pushGroup, lookupGrp, hK', hKK, ih]

theorem lookupGrp_pushSlots (L : Int) (acc : List (Int × List String))
    (ss : List (Option String)) (K : Int) :
    lookupGrp (pushSlots L acc ss) K =
      if L = K then extGroup (lookupGrp acc K) (slotWords ss) else lookupGrp acc K := by
  induction ss generalizing acc with
  | nil => by_cases h : L = K <;> simp [pushSlots, slotWords, extGroup, h]
  | cons s ss ih =>
    cases s with
    | none =>
      have hw : slotWords (none :: ss) = slotWords ss := by simp [slotWords]
      rw [pushSlots, ih, hw]
    | some w =>
      by_cases hemp : w.data.isEmpty = true
      · have hw : slotWords (some w :: ss) = slotWords ss := by
          simp [slotWords, List.filter_cons, hemp]
        rw [pushSlots, if_pos hemp, ih, hw]
      · have hw : slotWords (some w :: ss) = w :: slotWords ss := by
          simp [slotWords, List.filter_cons, hemp]
        rw [pushSlots, if_neg hemp, ih, hw, lookupGrp_pushGroup]
        by_cases hLK : L = K
        · rw [if_pos hLK, if_pos hLK, if_pos hLK,
            show w :: slotWords ss = [w] ++ slotWords ss from rfl, extGroup_append]
          congr 1
        · rw [if_neg hLK, if_neg hLK, if_neg hLK]

theorem lookupGrp_groupWordLists (wl : List WLEntry) (acc : List (Int × List String)) (K : Int) :
    lookupGrp (groupWordLists acc wl) K = extGroup (lookupGrp acc K) (specGatherWords wl K) := by
  induction wl generalizing acc with
  | nil => rfl
  | cons e es ih =>
    rw [groupWordLists, ih, lookupGrp_pushSlots, specGatherWords, extGroup_append]
    by_cases h : e.length = K
    · rw [if_pos h, if_pos h]
    · rw [if_neg h, if_neg h]
      rfl

theorem pushGroup_keys (acc : List (Int × List String)) (L : Int) (w : String) :
    (pushGroup acc L w).map Prod.fst =
      if L ∈ acc.map Prod.fst then acc.map Prod.fst else acc.map Prod.fst ++ [L] := by
  induction acc with
  | nil => simp [pushGroup]
  | cons g rest ih =>
    obtain ⟨K', ws⟩ := g
    by_cases hK' : K' = L
    · subst hK'; simp [pushGroup]
    · have hne : ¬ L = K' := fun hc => hK' hc.symm
      by_cases hm : L ∈ rest.map Prod.fst
      · simp [pushGroup, hK', hne, hm, ih]
      · simp [pushGroup, hK', hne, hm, ih]

theorem pushGroup_keys_nodup {acc : List (Int × List String)} (L : Int) (w : String)
    (h : (acc.map Prod.fst).Nodup) : ((pushGroup acc L w).map Prod.fst).Nodup := by
  rw [pushGroup_keys]
  by_cases hm : L ∈ acc.map Prod.fst
  · simpa [hm] using h
  · simp [hm, List.nodup_append, h]

theorem pushSlots_keys_nodup {acc : List (Int × List String)} (L : Int)
    (ss : List (Option String)) (h : (acc.map Prod.fst).Nodup) :
    ((pushSlots L acc ss).map Prod.fst).Nodup := by
  induction ss generalizing acc with
  | nil => exact h
  | cons s ss ih =>
    cases s with
    | none => exact ih h
    | some w =>
      by_cases hemp : w.data.isEmpty = true
      · rw [pushSlots, if_pos hemp]; exact ih h
      · rw [pushSlots, if_neg hemp]; exact ih (pushGroup_keys_nodup L w h)

theorem groupWordLists_keys_nodup {acc : List (Int × List String)} (wl : List WLEntry)
    (h : (acc.map Prod.fst).Nodup) : ((groupWordLists acc wl).map Prod.fst).Nodup := by
  induction wl generalizing acc with
  | nil => exact h
  | cons e es ih => exact ih (pushSlots_keys_nodup e.length e.slots h)

theorem lookupGrp_eq_of_mem {l : List (Int × List String)} (hn : (l.map Prod.fst).Nodup)
    {g : Int × List String} (hg : g ∈ l) : lookupGrp l g.1 = some g.2 := by
  induction l with
  | nil => cases hg
  | cons a rest ih =>
    rcases List.mem_cons.1 hg with rfl | hmem
    · simp [lookupGrp]
    · have hne : ¬ a.1 = g.1 := by
        intro hc
        have : g.1 ∈ rest.map Prod.fst := List.mem_map_of_mem Prod.fst hmem
        exact (List.nodup_cons.1 hn).1 (hc ▸ this)
      simp only [lookupGrp, if_neg hne]
      exact ih (List.nodup_cons.1 hn).2 hmem

/-- Characterization of `deriveSolvedWordsFromWordLists`: lengths strictly
ascending, and each group's words are the deduplicated concatenation of the
surviving slot words of that length, in first-seen order. -/
theorem deriveSolved_groups (wl : List WLEntry) :
    ((deriveSolvedWordsFromWordLists wl).map SolvedEntry.length).Pairwise (· < ·) ∧
    ∀ g ∈ deriveSolvedWordsFromWordLists wl,
      specGatherWords wl g.length ≠ [] ∧
      g.words = dedupePreserveOrder (specGatherWords wl g.length) := by
  have hkeys : ((groupWordLists [] wl).map Prod.fst).Nodup :=
    groupWordLists_keys_nodup wl (by simp)
  have hperm : List.Perm (List.insertionSort (fun a b => a.1 ≤ b.1) (groupWordLists [] wl))
      (groupWordLists [] wl) := List.perm_insertionSort _ _
  have hsortkeys : ((List.insertionSort (fun a b => a.1 ≤ b.1)
      (groupWordLists [] wl)).map Prod.fst).Nodup := (hperm.map Prod.fst).nodup_iff.2 hkeys
  constructor
  · have hsorted : (List.insertionSort (fun a b => a.1 ≤ b.1)
        (groupWordLists [] wl)).Pairwise fun a b => a.1 ≤ b.1 :=
      List.sorted_insertionSort _ _
    have hlt := pairwise_lt_of_sorted_nodup Prod.fst hsorted hsortkeys
    unfold deriveSolvedWordsFromWordLists
    rw [List.map_map]
    exact hlt
  · intro g hg
    unfold deriveSolvedWordsFromWordLists at hg
    obtain ⟨p, hp, hgp⟩ := List.mem_map.1 hg
    have hpmem : p ∈ groupWordLists [] wl := (List.mem_insertionSort _).1 hp
    have hlook : lookupGrp (groupWordLists [] wl) p.1 = some p.2 :=
      lookupGrp_eq_of_mem hkeys hpmem
    rw [lookupGrp_groupWordLists] at hlook
    have hglen : g.length = p.1 := by rw [← hgp]
    have hgwords : g.words = dedupePreserveOrder p.2 := by rw [← hgp]
    cases hgw : specGatherWords wl p.1 with
    | nil =>
      rw [hgw] at hlook
      exact absurd hlook (by simp [lookupGrp, extGroup])
    | cons x ws =>
      rw [hgw] at hlook
      have hp2 : x :: ws = p.2 := by
        simpa [lookupGrp, extGroup] using hlook
      refine ⟨?_, ?_⟩
      · rw [hglen, hgw]; simp
      · rw [hgwords, hglen, hgw, ← hp2]

theorem normSlot_some {L : Int} {x : Json} {w : String} (h : normSlot L x = some w) :
    isWordAZ w = true ∧ (w.data.length : Int) = L ∧ isSuspiciousWord w = false := by
  unfold normSlot at h
  split at h
  · simp only [] at h
    split at h
    · rename_i hcond
      cases h
      refine ⟨hcond.1, hcond.2.1, ?_⟩
      have := hcond.2.2
      simpa using this
    · cases h
  · cases h

theorem collectWLEntry_some_inv {i : Nat} {e : Json} {E : WLEntryI}
    (h : collectWLEntry i e = some E) :
    (3 ≤ E.length ∧ E.length ≤ 12) ∧
    ∀ s ∈ E.slots, ∀ w, s = some w →
      isWordAZ w = true ∧ (w.data.length : Int) = E.length ∧ isSuspiciousWord w = false := by
  unfold collectWLEntry at h
  repeat' split at h
  all_goals try cases h
  constructor
  · constructor <;> (dsimp only; omega)
  · intro s hsmem w hsw
    obtain ⟨x, _, hx⟩ := List.mem_map.1 hsmem
    rw [hsw] at hx
    have := normSlot_some hx
    exact ⟨this.1, this.2.1, this.2.2⟩

theorem collectWordLists_inv (i : Nat) (xs : List Json) :
    ∀ E ∈ collectWordLists i xs,
      (3 ≤ E.length ∧ E.length ≤ 12) ∧
      ∀ s ∈ E.slots, ∀ w, s = some w →
        isWordAZ w = true ∧ (w.data.length : Int) = E.length ∧ isSuspiciousWord w = false := by
  induction xs generalizing i with
  | nil => intro E hE; cases hE
  | cons x xs ih =>
    intro E hE
    simp only [collectWordLists] at hE
    cases hc : collectWLEntry i x with
    | none => rw [hc] at hE; exact ih _ E hE
    | some E' =>
      rw [hc] at hE
      rcases List.mem_cons.1 hE with rfl | hmem
      · exact collectWLEntry_some_inv hc
      · exact ih _ E hmem

theorem normalizeWordLists_some_inv {gf : Option Json} {notes : List String}
    {wl : List WLEntry} {notes1 : List String}
    (h : normalizeWordLists gf notes = (some wl, notes1)) :
    ∃ xs, gf = some (Json.arr xs) ∧ notes1 = notes ∧
      wl = (List.insertionSort wlLe (collectWordLists 0 xs)).map fun e =>
        WLEntry.mk e.length e.slots := by
  cases gf with
  | none => simp [normalizeWordLists] at h
  | some j =>
    cases j with
    | arr xs =>
      simp only [normalizeWordLists, Prod.mk.injEq, Option.some.injEq] at h
      exact ⟨xs, rfl, h.2.symm, h.1.symm⟩
    | null => simp [normalizeWordLists] at h
    | bool b => simp [normalizeWordLists] at h
    | num n => simp [normalizeWordLists] at h
    | str s => simp [normalizeWordLists] at h
    | obj fs => simp [normalizeWordLists] at h

/-- Inversion of a successful `parseWordscapes` run: the keys passed the
allow-list, `letters` and `missingByLength` were present and normalized into
the board, and the `wordLists`/`solvedWordsByLength` fields of the board arose
from exactly one of the two source branches. -/
theorem parseWordscapes_ok_inv {fields : List (String × Json)} {b : WordscapesBoard}
    (h : parseWordscapes fields = Except.ok b) :
    (fields.map Prod.fst).filter (fun k => !ALLOWED_TOP_LEVEL_KEYS_WORDSCAPES.contains k) = [] ∧
    ∃ lettersRaw missingRaw,
      getField fields "letters" = some lettersRaw ∧
      getField fields "missingByLength" = some missingRaw ∧
      normalizeLetters lettersRaw = Except.ok b.letters ∧
      normalizeMissingByLength missingRaw = Except.ok b.missingByLength ∧
      ((∃ wl notes1,
          normalizeWordLists (getField fields "wordLists")
            (normalizeNotes (getField fields "notes")) = (some wl, notes1) ∧
          wl ≠ [] ∧ b.wordLists = wl ∧ b.notes = notes1 ∧
          b.solvedWordsByLength = deriveSolvedWordsFromWordLists wl) ∨
       (∃ wlOpt notes1,
          normalizeWordLists (getField fields "wordLists")
            (normalizeNotes (getField fields "notes")) = (wlOpt, notes1) ∧
          (wlOpt = none ∨ wlOpt = some []) ∧ b.wordLists = [] ∧
          ∃ swOpt notes2,
            normalizeSolvedWordsByLength (getField fields "solvedWordsByLength") notes1 =
              (swOpt, notes2) ∧
            b.notes = notes2 ∧ b.solvedWordsByLength = swOpt.getD [])) := by
  simp only [parseWordscapes] at h
  by_cases hkeys :
      (fields.map Prod.fst).filter (fun k => !ALLOWED_TOP_LEVEL_KEYS_WORDSCAPES.contains k) = []
  · rw [if_neg (fun hne => hne hkeys)] at h
    refine ⟨hkeys, ?_⟩
    cases hlr : getField fields "letters" with
    | none => rw [hlr] at h; cases h
    | some lettersRaw =>
      cases hmr : getField fields "missingByLength" with
      | none => rw [hlr, hmr] at h; cases h
      | some missingRaw =>
        rw [hlr, hmr] at h
        refine ⟨lettersRaw, missingRaw, rfl, rfl, ?_⟩
        obtain ⟨letters, hletters, h⟩ := except_bind_ok_iff.1 h
        obtain ⟨missing, hmissing, h⟩ := except_bind_ok_iff.1 h
        split at h
        · rename_i wl hw1
          by_cases hwl : wl ≠ []
          · rw [if_pos hwl] at h
            cases h
            refine ⟨hletters, hmissing, Or.inl ⟨wl,
              (normalizeWordLists (getField fields "wordLists")
                (normalizeNotes (getField fields "notes"))).2, ?_, hwl, rfl, rfl, rfl⟩⟩
            rw [← hw1]
          · rw [if_neg hwl] at h
            cases h
            push_neg at hwl
            refine ⟨hletters, hmissing, Or.inr ⟨some wl,
              (normalizeWordLists (getField fields "wordLists")
                (normalizeNotes (getField fields "notes"))).2, ?_,
              Or.inr (by rw [hwl]), rfl, _, _, rfl, rfl, rfl⟩⟩
            rw [← hw1]
        · rename_i hw1
          cases h
          refine ⟨hletters, hmissing, Or.inr ⟨none,
            (normalizeWordLists (getField fields "wordLists")
              (normalizeNotes (getField fields "notes"))).2, ?_,
            Or.inl rfl, rfl, _, _, rfl, rfl, rfl⟩⟩
          rw [← hw1]
  · have hne : (fields.map Prod.fst).filter
        (fun k => !ALLOWED_TOP_LEVEL_KEYS_WORDSCAPES.contains k) ≠ [] := hkeys
    rw [if_pos hne] at h
    cases h

/-- The C6 example: a valid Wordscapes input whose `wordLists` entry of
length 4 has slots `["CATS","DOGS","FREEZ"]` (the last of length 5 and
containing the token `FREE`). -/
def c6Fields : List (String × Json) :=
  [("schema", Json.str "WORDVINDER_BOARD_EXTRACT_V4"),
   ("game", Json.str "WORDSCAPES"),
   ("letters", Json.arr [Json.str "C", Json.str "A", Json.str "T", Json.str "S", Json.str "D"]),
   ("missingByLength", Json.arr []),
   ("wordLists", Json.arr [Json.obj [("length", Json.num 4),
      ("slots", Json.arr [Json.str "CATS", Json.str "DOGS", Json.str "FREEZ"])]])]

/-- The canonical board obtained from `c6Fields`: the bad slot became `null`
at its original position, the parse succeeded, and the solved words were
derived by grouping. -/
def c6Board : WordscapesBoard :=
  ⟨["C", "A", "T", "S", "D"], [], [],
   [⟨4, [some "CATS", some "DOGS", none]⟩],
   [⟨4, ["CATS", "DOGS"]⟩]⟩

/-- C6: every kept `wordLists` entry has length in `[3,12]` and every
non-null slot holds an uppercase word of exactly the declared length with no
suspicious token (all other slots became `null` without failing the parse);
when `wordLists` is non-empty, `solvedWordsByLength` is derived from it by
grouping the surviving slot words by length, deduplicating per length in
first-seen order, and sorting groups strictly ascending by length.  The
concrete `["CATS","DOGS","FREEZ"]` example behaves as the claim states. -/
theorem c6_wordlists :
    (∀ (fields : List (String × Json)) (b : WordscapesBoard),
        parseWordscapes fields = Except.ok b →
        (∀ e ∈ b.wordLists, (3 ≤ e.length ∧ e.length ≤ 12) ∧
          ∀ s ∈ e.slots, ∀ w, s = some w →
            isWordAZ w = true ∧ (w.data.length : Int) = e.length ∧ isSuspiciousWord w = false) ∧
        (b.wordLists ≠ [] →
          b.solvedWordsByLength = deriveSolvedWordsFromWordLists b.wordLists)) ∧
    (∀ wl : List WLEntry,
        ((deriveSolvedWordsFromWordLists wl).map SolvedEntry.length).Pairwise (· < ·) ∧
        ∀ g ∈ deriveSolvedWordsFromWordLists wl,
          g.words = dedupePreserveOrder (specGatherWords wl g.length)) ∧
    parseWordscapes c6Fields = Except.ok c6Board := by
  refine ⟨?_, fun wl => ⟨(deriveSolved_groups wl).1,
    fun g hg => ((deriveSolved_groups wl).2 g hg).2⟩, rfl⟩
  intro fields b h
  obtain ⟨-, lettersRaw, missingRaw, -, -, -, -, hbranch⟩ := parseWordscapes_ok_inv h
  rcases hbranch with ⟨wl, notes1, hw, hwlne, hbwl, -, hbsolved⟩ |
    ⟨wlOpt, notes1, hw, hnone, hbwl, swOpt, notes2, hs, hbnotes, hbsolved⟩
  · constructor
    · intro e he
      rw [hbwl] at he
      obtain ⟨xs, -, -, hwl⟩ := normalizeWordLists_some_inv hw
      rw [hwl] at he
      obtain ⟨E, hE, rfl⟩ := List.mem_map.1 he
      have hEc := collectWordLists_inv 0 xs E ((List.mem_insertionSort _).1 hE)
      exact ⟨hEc.1, fun s hs w hsw => hEc.2 s hs w hsw⟩
    · intro _
      rw [hbsolved, hbwl]
  · constructor
    · intro e he
      rw [hbwl] at he
      cases he
    · intro hne
      exact absurd hbwl hne

/-- Witness for C6, instantiating the theorem on the concrete example. -/
theorem c6_wordlists_witness :
    ((3:Int) ≤ 4 ∧ (4:Int) ≤ 12) ∧
    (isWordAZ "CATS" = true ∧ (("CATS" : String).data.length : Int) = 4 ∧
      isSuspiciousWord "CATS" = false) ∧
    c6Board.solvedWordsByLength = deriveSolvedWordsFromWordLists c6Board.wordLists ∧
    (SolvedEntry.mk 4 ["CATS", "DOGS"]).words =
      dedupePreserveOrder (specGatherWords c6Board.wordLists 4) := by
  have h := c6_wordlists.1 c6Fields c6Board rfl
  have he := h.1 ⟨4, [some "CATS", some "DOGS", none]⟩ (by simp [c6Board])
  refine ⟨he.1, ?_, h.2 (by simp [c6Board]), ?_⟩
  · exact he.2 (some "CATS") (by simp) "CATS" rfl
  · exact (c6_wordlists.2.1 c6Board.wordLists).2 ⟨4, ["CATS", "DOGS"]⟩ (by decide)

/-! ## Claim C9: the legacy `MODEL_OUTPUT_SUSPICIOUS` path -/

theorem except_bind_error_iff {α β : Type} {e : Except ErrInfo α} {f : α → Except ErrInfo β}
    {err : ErrInfo} :
    (e >>= f) = Except.error err ↔
      (e = Except.error err ∨ ∃ a, e = Except.ok a ∧ f a = Except.error err) := by
  cases e with
  | ok a =>
    simp only [bind, Except.bind]
    constructor
    · intro h; exact Or.inr ⟨a, rfl, h⟩
    · rintro (h | ⟨a', ha', hf⟩)
      · cases h
      · cases ha'; exact hf
  | error err' =>
    simp only [bind, Except.bind]
    constructor
    · intro h
      refine Or.inl ?_
      have herr : err' = err := by cases h; rfl
      rw [herr]
    · rintro (h | ⟨a', ha', _⟩)
      · have herr : err' = err := by cases h; rfl
        rw [herr]
      · cases ha'

theorem legacyLetters_error_code {xs : List Json} {e : ErrInfo}
    (h : Legacy.legacyLetters xs = Except.error e) : e.code = "MODEL_OUTPUT_SCHEMA_INVALID" := by
  induction xs with
  | nil => cases h
  | cons x xs ih =>
    simp only [Legacy.legacyLetters] at h
    repeat' split at h
    all_goals first
      | (cases h; rfl)
      | (rcases except_bind_error_iff.1 h with h' | ⟨a, -, hf⟩
         · exact ih h'
         · cases hf)

theorem legacySolved_error_code {xs : List Json} {e : ErrInfo}
    (h : Legacy.legacySolved xs = Except.error e) : e.code = "MODEL_OUTPUT_SCHEMA_INVALID" := by
  induction xs with
  | nil => cases h
  | cons x xs ih =>
    simp only [Legacy.legacySolved] at h
    repeat' split at h
    all_goals first
      | (cases h; rfl)
      | (rcases except_bind_error_iff.1 h with h' | ⟨a, -, hf⟩
         · exact ih h'
         · cases hf)

theorem legacySlots_error_code {xs : List Json} {e : ErrInfo}
    (h : Legacy.legacySlots xs = Except.error e) : e.code = "MODEL_OUTPUT_SCHEMA_INVALID" := by
  induction xs with
  | nil => cases h
  | cons x xs ih =>
    simp only [Legacy.legacySlots] at h
    repeat' split at h
    all_goals first
      | (cases h; rfl)
      | (rcases except_bind_error_iff.1 h with h' | ⟨a, -, hf⟩
         · exact ih h'
         · cases hf)

theorem structuralCore_error_code {v : Json} {e : ErrInfo}
    (h : Legacy.structuralCore v = Except.error e) : e.code = "MODEL_OUTPUT_SCHEMA_INVALID" := by
  simp only [Legacy.structuralCore] at h
  repeat' split at h
  all_goals try (cases h; rfl)
  all_goals
    rcases except_bind_error_iff.1 h with h1 | ⟨letters, -, h⟩
    · exact legacyLetters_error_code h1
    · rcases except_bind_error_iff.1 h with h2 | ⟨solved, -, h⟩
      · exact legacySolved_error_code h2
      · rcases except_bind_error_iff.1 h with h3 | ⟨slots, -, h⟩
        · exact legacySlots_error_code h3
        · split at h
          · cases h; rfl
          · cases h

/-- C9: on every input passing the legacy parser's structural validation
whose deduplicated solved words contain a suspicious token, the legacy parser
rejects the whole board with `ok:false` and code `MODEL_OUTPUT_SUSPICIOUS`
(a successful parse never contains a suspicious word), and that code arises
from no other condition. -/
theorem c9_legacy_suspicious :
    (∀ (v : Json) (letters solved : List String) (slots : List Legacy.LSlot),
        Legacy.structuralCore v = Except.ok (letters, solved, slots) →
        (∀ w ∈ solved, isSuspiciousWord w = true →
          ∃ e, Legacy.parseModelOutput v = Except.error e ∧
            e.code = "MODEL_OUTPUT_SUSPICIOUS") ∧
        (∀ b, Legacy.parseModelOutput v = Except.ok b →
          ∀ w ∈ b.solvedWords, isSuspiciousWord w = false)) ∧
    (∀ (v : Json) (e : ErrInfo), Legacy.parseModelOutput v = Except.error e →
        e.code = "MODEL_OUTPUT_SUSPICIOUS" →
        ∃ letters solved slots,
          Legacy.structuralCore v = Except.ok (letters, solved, slots) ∧
          ∃ w ∈ solved, isSuspiciousWord w = true) := by
  constructor
  · intro v letters solved slots h
    have hparse : Legacy.parseModelOutput v =
        (match solved.find? isSuspiciousWord with
          | some w =>
            Except.error ⟨"MODEL_OUTPUT_SUSPICIOUS", "Suspicious word detected: " ++ w⟩
          | none =>
            Except.ok ⟨letters, solved, Legacy.mergeUnsolvedSlots slots⟩) := by
      unfold Legacy.parseModelOutput
      rw [h]
      rfl
    constructor
    · intro w hw hsusp
      cases hfind : solved.find? isSuspiciousWord with
      | none => exact absurd hsusp (List.find?_eq_none.1 hfind w hw)
      | some w' =>
        rw [hfind] at hparse
        exact ⟨_, hparse, rfl⟩
    · intro b hb w hw
      rw [hparse] at hb
      cases hfind : solved.find? isSuspiciousWord with
      | some w' => rw [hfind] at hb; cases hb
      | none =>
        rw [hfind] at hb
        cases hb
        exact Bool.not_eq_true _ ▸ List.find?_eq_none.1 hfind w hw
  · intro v e h hcode
    cases hsc : Legacy.structuralCore v with
    | error e' =>
      have hpe : Legacy.parseModelOutput v = Except.error e' := by
        unfold Legacy.parseModelOutput
        rw [hsc]
        rfl
      rw [hpe] at h
      cases h
      have hc := structuralCore_error_code hsc
      rw [hc] at hcode
      exact absurd hcode (by decide)
    | ok triple =>
      obtain ⟨letters, solved, slots⟩ := triple
      have hparse : Legacy.parseModelOutput v =
          (match solved.find? isSuspiciousWord with
            | some w =>
              Except.error ⟨"MODEL_OUTPUT_SUSPICIOUS", "Suspicious word detected: " ++ w⟩
            | none =>
              Except.ok ⟨letters, solved, Legacy.mergeUnsolvedSlots slots⟩) := by
        unfold Legacy.parseModelOutput
        rw [hsc]
        rfl
      rw [hparse] at h
      cases hfind : solved.find? isSuspiciousWord with
      | none => rw [hfind] at h; cases h
      | some w =>
        exact ⟨letters, solved, slots, rfl, w,
          List.mem_of_find?_eq_some hfind, List.find?_some hfind⟩

/-- The C9 witness input: structurally valid, one solved word `FREEBIE`. -/
def c9v : Json :=
  Json.obj [("letters", Json.arr
      [Json.str "F", Json.str "R", Json.str "E", Json.str "B", Json.str "I"]),
    ("solvedWords", Json.arr [Json.str "FREEBIE"]),
    ("unsolvedSlots", Json.arr [])]

/-- Witness for C9 at the concrete `FREEBIE` input. -/
theorem c9_legacy_suspicious_witness :
    (∃ e, Legacy.parseModelOutput c9v = Except.error e ∧
      e.code = "MODEL_OUTPUT_SUSPICIOUS") ∧
    (∃ letters solved slots,
      Legacy.structuralCore c9v = Except.ok (letters, solved, slots) ∧
      ∃ w ∈ solved, isSuspiciousWord w = true) :=
  ⟨(c9_legacy_suspicious.1 c9v ["F", "R", "E", "B", "I"] ["FREEBIE"] [] rfl).1
      "FREEBIE" (by simp) rfl,
   c9_legacy_suspicious.2 c9v
      ⟨"MODEL_OUTPUT_SUSPICIOUS", "Suspicious word detected: FREEBIE"⟩ rfl rfl⟩

/-! ## Claim C1: idempotence of Wordscapes normalization

Component invariants of a first successful parse, and round-trip lemmas
showing each normalizer is the identity on its own (serialized) output. -/

theorem normLetterList_ok_inv {xs : List Json} {ls : List String}
    (h : normLetterList xs = Except.ok ls) :
    (∀ s ∈ ls, isSingleAZ s = true) ∧ ls.length = xs.length := by
  induction xs generalizing ls with
  | nil => cases h; exact ⟨by simp, rfl⟩
  | cons x xs ih =>
    simp only [normLetterList] at h
    split at h
    · split at h
      · obtain ⟨rest, hrest, hok⟩ := except_bind_ok_iff.1 h
        cases hok
        obtain ⟨hall, hlen⟩ := ih hrest
        refine ⟨?_, by simp [hlen]⟩
        intro s hs
        rcases List.mem_cons.1 hs with rfl | hmem
        · assumption
        · exact hall s hmem
      · cases h
    · cases h

theorem normalizeLetters_ok_inv {j : Json} {ls : List String}
    (h : normalizeLetters j = Except.ok ls) :
    5 ≤ ls.length ∧ ls.length ≤ 8 ∧ ls.Nodup ∧ ∀ s ∈ ls, isSingleAZ s = true := by
  unfold normalizeLetters at h
  split at h
  · split at h
    · cases h
    · obtain ⟨letters, hletters, h⟩ := except_bind_ok_iff.1 h
      simp only [] at h
      split at h
      · cases h
      · cases h
        rename_i hlen5 hxslen hdlen
        obtain ⟨hall, hllen⟩ := normLetterList_ok_inv hletters
        refine ⟨by omega, ?_, dedupePreserveOrder_nodup letters, ?_⟩
        · have hle : (dedupePreserveOrder letters).length ≤ letters.length :=
            (dedupePreserveOrder_sublist letters).length_le
          omega
        · intro s hs
          exact hall s (mem_of_mem_dedupePreserveOrder hs)
  · cases h

theorem normLetterList_roundtrip {ls : List String} (h : ∀ s ∈ ls, isSingleAZ s = true) :
    normLetterList (ls.map Json.str) = Except.ok ls := by
  induction ls with
  | nil => rfl
  | cons s ls ih =>
    have hs : isSingleAZ s = true := h s (List.mem_cons_self s ls)
    simp only [List.map_cons, normLetterList, normStr_eq_self_of_isSingleAZ hs, hs, if_true,
      ih fun t ht => h t (List.mem_cons_of_mem s ht)]
    rfl

theorem normalizeLetters_roundtrip {ls : List String}
    (h5 : 5 ≤ ls.length) (h8 : ls.length ≤ 8) (hnd : ls.Nodup)
    (hAZ : ∀ s ∈ ls, isSingleAZ s = true) :
    normalizeLetters (Json.arr (ls.map Json.str)) = Except.ok ls := by
  simp only [normalizeLetters, List.length_map]
  rw [if_neg (by omega)]
  rw [normLetterList_roundtrip hAZ]
  simp only [bind, Except.bind, dedupePreserveOrder_eq_self hnd]
  rw [if_neg (by omega)]

theorem normalizeMissingEntry_ok_inv {x : Json} {e : MEntry}
    (h : normalizeMissingEntry x = Except.ok e) :
    (3 ≤ e.length ∧ e.length ≤ 12) ∧
      (e.count = none ∨ ∃ c, e.count = some c ∧ 0 ≤ c ∧ c ≤ 20) := by
  unfold normalizeMissingEntry at h
  repeat' split at h
  all_goals try cases h
  · exact ⟨⟨by (try dsimp only); omega, by (try dsimp only); omega⟩, Or.inl rfl⟩
  · exact ⟨⟨by (try dsimp only); omega, by (try dsimp only); omega⟩,
      Or.inr ⟨_, rfl, by (try dsimp only); omega, by (try dsimp only); omega⟩⟩

theorem normalizeMissingEntries_ok_inv {xs : List Json} {es : List MEntry}
    (h : normalizeMissingEntries xs = Except.ok es) :
    ∀ e ∈ es, (3 ≤ e.length ∧ e.length ≤ 12) ∧
      (e.count = none ∨ ∃ c, e.count = some c ∧ 0 ≤ c ∧ c ≤ 20) := by
  induction xs generalizing es with
  | nil => cases h; simp
  | cons x xs ih =>
    simp only [normalizeMissingEntries] at h
    obtain ⟨e', he', h⟩ := except_bind_ok_iff.1 h
    obtain ⟨rest, hrest, hok⟩ := except_bind_ok_iff.1 h
    cases hok
    intro e he
    rcases List.mem_cons.1 he with rfl | hmem
    · exact normalizeMissingEntry_ok_inv he'
    · exact ih hrest e hmem

/-- The counts invariant a merged `missingByLength` list satisfies except for
the upper bound (which merging can break). -/
theorem normalizeMissingByLength_ok_inv {j : Json} {ms : List MEntry}
    (h : normalizeMissingByLength j = Except.ok ms) :
    (ms.map MEntry.length).Pairwise (· < ·) ∧
    ∀ m ∈ ms, (3 ≤ m.length ∧ m.length ≤ 12) ∧
      (m.count = none ∨ ∃ c, m.count = some c ∧ 0 ≤ c) := by
  unfold normalizeMissingByLength at h
  split at h
  · obtain ⟨es, hes, hms⟩ := except_map_ok_iff.1 h
    subst hms
    have hinv := normalizeMissingEntries_ok_inv hes
    refine ⟨mergeMissingByLength_lengths_lt es, ?_⟩
    intro m hm
    obtain ⟨hne, hcount⟩ := mergeMissingByLength_count hm
    constructor
    · cases hfe : entriesWithLength es m.length with
      | nil => exact absurd hfe hne
      | cons e rest =>
        have hemem : e ∈ es := by
          have : e ∈ entriesWithLength es m.length := by rw [hfe]; simp
          exact List.mem_of_mem_filter this
        have helen : e.length = m.length := by
          have : e ∈ entriesWithLength es m.length := by rw [hfe]; simp
          have := List.of_mem_filter this
          simpa using this
        have := (hinv e hemem).1
        omega
    · rw [hcount]
      unfold specMergeCount
      split
      · exact Or.inl rfl
      · refine Or.inr ⟨_, rfl, ?_⟩
        refine List.sum_nonneg ?_
        intro c hc
        obtain ⟨o, ho, hoc⟩ := List.mem_filterMap.1 hc
        obtain ⟨e, he, hce⟩ := List.mem_map.1 ho
        have hemem : e ∈ es := List.mem_of_mem_filter he
        rcases (hinv e hemem).2 with hnone | ⟨c', hc', hge, _⟩
        · rw [hnone] at hce; rw [← hce] at hoc; cases hoc
        · rw [hc'] at hce
          rw [← hce] at hoc
          cases hoc
          exact hge
  · cases h

theorem normalizeMissingEntry_roundtrip {e : MEntry}
    (hl : 3 ≤ e.length ∧ e.length ≤ 12)
    (hc : e.count = none ∨ ∃ c, e.count = some c ∧ 0 ≤ c ∧ c ≤ 20) :
    normalizeMissingEntry (mEntryToJson e) = Except.ok e := by
  obtain ⟨L, c⟩ := e
  simp only at hl
  rcases hc with hc | ⟨c', hc', hge, hle⟩
  · simp only at hc
    subst hc
    simp [normalizeMissingEntry, mEntryToJson, getField, jsNumber, hl]
  · simp only at hc'
    subst hc'
    simp [normalizeMissingEntry, mEntryToJson, getField, jsNumber, hl]
    omega

theorem normalizeMissingEntries_roundtrip {ms : List MEntry}
    (hinv : ∀ e ∈ ms, (3 ≤ e.length ∧ e.length ≤ 12) ∧
      (e.count = none ∨ ∃ c, e.count = some c ∧ 0 ≤ c ∧ c ≤ 20)) :
    normalizeMissingEntries (ms.map mEntryToJson) = Except.ok ms := by
  induction ms with
  | nil => rfl
  | cons e es ih =>
    simp only [List.map_cons, normalizeMissingEntries,
      normalizeMissingEntry_roundtrip (hinv e (List.mem_cons_self e es)).1
        (hinv e (List.mem_cons_self e es)).2,
      ih fun x hx => hinv x (List.mem_cons_of_mem e hx)]
    rfl

theorem mergeMissingByLength_eq_self {ms : List MEntry}
    (hsorted : (ms.map MEntry.length).Pairwise (· < ·)) :
    mergeMissingByLength ms = ms := by
  have hnd : (ms.map MEntry.length).Nodup := hsorted.imp fun h => ne_of_lt h
  unfold mergeMissingByLength
  rw [foldl_addMerge_eq_append ms [] (by simpa using hnd)]
  rw [List.nil_append]
  refine List.Sorted.insertionSort_eq ?_
  exact (List.pairwise_map.1 hsorted).imp fun h => le_of_lt h

theorem normalizeMissingByLength_roundtrip {ms : List MEntry}
    (hsorted : (ms.map MEntry.length).Pairwise (· < ·))
    (hinv : ∀ e ∈ ms, (3 ≤ e.length ∧ e.length ≤ 12) ∧
      (e.count = none ∨ ∃ c, e.count = some c ∧ 0 ≤ c ∧ c ≤ 20)) :
    normalizeMissingByLength (Json.arr (ms.map mEntryToJson)) = Except.ok ms := by
  simp only [normalizeMissingByLength]
  rw [normalizeMissingEntries_roundtrip hinv]
  simp [Except.map, mergeMissingByLength_eq_self hsorted]

theorem normalizeNotes_roundtrip (ns : List String) :
    normalizeNotes (some (Json.arr (ns.map Json.str))) = ns := by
  induction ns with
  | nil => rfl
  | cons n ns ih =>
    simp only [normalizeNotes, List.map_cons, List.filterMap_cons] at ih ⊢
    rw [ih]

/-- The index-decorated list `normalizeWordLists` rebuilds when re-parsing a
serialized `wordLists` value whose entries are all kept. -/
def attachIdx (i : Nat) : List WLEntry → List WLEntryI
  | [] => []
  | e :: es => ⟨e.length, e.slots, i⟩ :: attachIdx (i + 1) es

theorem normSlot_slotToJson {L : Int} {s : Option String}
    (h : ∀ w, s = some w →
      isWordAZ w = true ∧ (w.data.length : Int) = L ∧ isSuspiciousWord w = false) :
    normSlot L (slotToJson s) = s := by
  cases s with
  | none => rfl
  | some w =>
    obtain ⟨h1, h2, h3⟩ := h w rfl
    have h2' : (w.length : Int) = L := by simpa using h2
    simp [slotToJson, normSlot, normStr_eq_self_of_isWordAZ h1, h1, h2', h3]

theorem collectWLEntry_roundtrip (i : Nat) {e : WLEntry}
    (hb : 3 ≤ e.length ∧ e.length ≤ 12)
    (hslots : ∀ s ∈ e.slots, ∀ w, s = some w →
      isWordAZ w = true ∧ (w.data.length : Int) = e.length ∧ isSuspiciousWord w = false) :
    collectWLEntry i (wlEntryToJson e) = some ⟨e.length, e.slots, i⟩ := by
  have hstep : collectWLEntry i (wlEntryToJson e) =
      (if 3 ≤ e.length ∧ e.length ≤ 12 then
        some ⟨e.length, (e.slots.map slotToJson).map (normSlot e.length), i⟩
      else none) := rfl
  have hslots' : (e.slots.map slotToJson).map (normSlot e.length) = e.slots := by
    rw [List.map_map]
    calc List.map (normSlot e.length ∘ slotToJson) e.slots
        = List.map id e.slots :=
          List.map_congr_left fun s hs => normSlot_slotToJson (hslots s hs)
      _ = e.slots := List.map_id _
  rw [hstep, if_pos hb, hslots']

theorem collectWordLists_roundtrip (i : Nat) {wl : List WLEntry}
    (hinv : ∀ e ∈ wl, (3 ≤ e.length ∧ e.length ≤ 12) ∧
      ∀ s ∈ e.slots, ∀ w, s = some w →
        isWordAZ w = true ∧ (w.data.length : Int) = e.length ∧ isSuspiciousWord w = false) :
    collectWordLists i (wl.map wlEntryToJson) = attachIdx i wl := by
  induction wl generalizing i with
  | nil => rfl
  | cons e es ih =>
    have he := hinv e (List.mem_cons_self e es)
    simp only [List.map_cons, collectWordLists, collectWLEntry_roundtrip i he.1 he.2]
    rw [ih (i + 1) fun x hx => hinv x (List.mem_cons_of_mem e hx)]
    rfl

theorem attachIdx_index_ge (i : Nat) (wl : List WLEntry) :
    ∀ E ∈ attachIdx i wl, i ≤ E.index := by
  induction wl generalizing i with
  | nil => intro E hE; cases hE
  | cons e es ih =>
    intro E hE
    rcases List.mem_cons.1 hE with rfl | hmem
    · exact le_refl i
    · have := ih (i + 1) E hmem
      omega

theorem mem_attachIdx {i : Nat} {wl : List WLEntry} {E : WLEntryI}
    (hE : E ∈ attachIdx i wl) : ∃ f ∈ wl, E.length = f.length := by
  induction wl generalizing i with
  | nil => cases hE
  | cons e es ih =>
    rcases List.mem_cons.1 hE with rfl | hmem
    · exact ⟨e, List.mem_cons_self e es, rfl⟩
    · obtain ⟨f, hf, hfl⟩ := ih hmem
      exact ⟨f, List.mem_cons_of_mem e hf, hfl⟩

theorem attachIdx_sorted {wl : List WLEntry}
    (hs : wl.Pairwise fun a b => a.length ≤ b.length) (i : Nat) :
    (attachIdx i wl).Pairwise wlLe := by
  induction wl generalizing i with
  | nil => exact List.Pairwise.nil
  | cons e es ih =>
    refine List.Pairwise.cons ?_ (ih (List.pairwise_cons.1 hs).2 (i + 1))
    intro F hF
    obtain ⟨f, hf, hFlen⟩ := mem_attachIdx hF
    have hle : e.length ≤ f.length := (List.pairwise_cons.1 hs).1 f hf
    have hidx : i + 1 ≤ F.index := attachIdx_index_ge (i + 1) es F hF
    unfold wlLe
    rcases lt_or_eq_of_le hle with hlt | heq
    · refine Or.inl ?_
      show e.length < F.length
      rw [hFlen]
      exact hlt
    · refine Or.inr ⟨?_, ?_⟩
      · show e.length = F.length
        rw [hFlen]
        exact heq
      · show i ≤ F.index
        omega

theorem attachIdx_dropIdx (i : Nat) (wl : List WLEntry) :
    (attachIdx i wl).map (fun E => WLEntry.mk E.length E.slots) = wl := by
  induction wl generalizing i with
  | nil => rfl
  | cons e es ih =>
    simp only [attachIdx, List.map_cons, ih]

theorem normalizeWordLists_roundtrip {wl : List WLEntry} (notes : List String)
    (hinv : ∀ e ∈ wl, (3 ≤ e.length ∧ e.length ≤ 12) ∧
      ∀ s ∈ e.slots, ∀ w, s = some w →
        isWordAZ w = true ∧ (w.data.length : Int) = e.length ∧ isSuspiciousWord w = false)
    (hsorted : wl.Pairwise fun a b => a.length ≤ b.length) :
    normalizeWordLists (some (Json.arr (wl.map wlEntryToJson))) notes = (some wl, notes) := by
  simp only [normalizeWordLists]
  rw [collectWordLists_roundtrip 0 hinv]
  rw [List.Sorted.insertionSort_eq (attachIdx_sorted hsorted 0)]
  rw [attachIdx_dropIdx]

theorem normalizeWordLists_some_sorted {gf : Option Json} {notes : List String}
    {wl : List WLEntry} {notes1 : List String}
    (h : normalizeWordLists gf notes = (some wl, notes1)) :
    wl.Pairwise fun a b => a.length ≤ b.length := by
  obtain ⟨xs, -, -, hwl⟩ := normalizeWordLists_some_inv h
  subst hwl
  have hs : (List.insertionSort wlLe (collectWordLists 0 xs)).Pairwise wlLe :=
    List.sorted_insertionSort _ _
  refine List.pairwise_map.2 (hs.imp fun hab => ?_)
  unfold wlLe at hab
  rcases hab with h' | ⟨h', -⟩
  · exact le_of_lt h'
  · exact le_of_eq h'

theorem collectSolvedWords_inv (L : Int) (ws : List Json) :
    ∀ w ∈ collectSolvedWords L ws,
      isWordAZ w = true ∧ (w.data.length : Int) = L ∧ isSuspiciousWord w = false := by
  induction ws with
  | nil => intro w hw; cases hw
  | cons x xs ih =>
    intro w hw
    cases x with
    | str s =>
      simp only [collectSolvedWords] at hw
      split at hw
      · rename_i hcond
        rcases List.mem_cons.1 hw with rfl | hmem
        · exact ⟨hcond.1, hcond.2.1, by simpa using hcond.2.2⟩
        · exact ih w hmem
      · exact ih w hw
    | null => exact ih w hw
    | bool b => exact ih w hw
    | num n => exact ih w hw
    | arr ys => exact ih w hw
    | obj fs => exact ih w hw

theorem collectSolvedEntry_some_inv {x : Json} {E : SolvedEntry}
    (h : collectSolvedEntry x = some E) :
    (3 ≤ E.length ∧ E.length ≤ 12) ∧ E.words.Nodup ∧
    ∀ w ∈ E.words,
      isWordAZ w = true ∧ (w.data.length : Int) = E.length ∧ isSuspiciousWord w = false := by
  unfold collectSolvedEntry at h
  repeat' split at h
  all_goals try cases h
  refine ⟨⟨by (try dsimp only); omega, by (try dsimp only); omega⟩,
    dedupePreserveOrder_nodup _, ?_⟩
  intro w hw
  exact collectSolvedWords_inv _ _ w (mem_of_mem_dedupePreserveOrder hw)

theorem collectSolvedEntries_inv (xs : List Json) :
    ∀ E ∈ collectSolvedEntries xs,
      (3 ≤ E.length ∧ E.length ≤ 12) ∧ E.words.Nodup ∧
      ∀ w ∈ E.words,
        isWordAZ w = true ∧ (w.data.length : Int) = E.length ∧ isSuspiciousWord w = false := by
  induction xs with
  | nil => intro E hE; cases hE
  | cons x xs ih =>
    intro E hE
    simp only [collectSolvedEntries] at hE
    cases hc : collectSolvedEntry x with
    | none => rw [hc] at hE; exact ih E hE
    | some E' =>
      rw [hc] at hE
      rcases List.mem_cons.1 hE with rfl | hmem
      · exact collectSolvedEntry_some_inv hc
      · exact ih E hmem

theorem normalizeSolvedWordsByLength_some_inv {gf : Option Json} {notes : List String}
    {sw : List SolvedEntry} {notes1 : List String}
    (h : normalizeSolvedWordsByLength gf notes = (some sw, notes1)) :
    ∃ xs, gf = some (Json.arr xs) ∧ notes1 = notes ∧
      sw = List.insertionSort (fun a b => a.length ≤ b.length) (collectSolvedEntries xs) := by
  cases gf with
  | none => simp [normalizeSolvedWordsByLength] at h
  | some j =>
    cases j with
    | arr xs =>
      simp only [normalizeSolvedWordsByLength, Prod.mk.injEq, Option.some.injEq] at h
      exact ⟨xs, rfl, h.2.symm, h.1.symm⟩
    | null => simp [normalizeSolvedWordsByLength] at h
    | bool b => simp [normalizeSolvedWordsByLength] at h
    | num n => simp [normalizeSolvedWordsByLength] at h
    | str s => simp [normalizeSolvedWordsByLength] at h
    | obj fs => simp [normalizeSolvedWordsByLength] at h

theorem collectSolvedWords_roundtrip {L : Int} {ws : List String}
    (h : ∀ w ∈ ws,
      isWordAZ w = true ∧ (w.data.length : Int) = L ∧ isSuspiciousWord w = false) :
    collectSolvedWords L (ws.map Json.str) = ws := by
  induction ws with
  | nil => rfl
  | cons w ws ih =>
    obtain ⟨h1, h2, h3⟩ := h w (List.mem_cons_self w ws)
    simp only [List.map_cons, collectSolvedWords, normStr_eq_self_of_isWordAZ h1]
    rw [if_pos ⟨h1, by simpa using h2, by simp [h3]⟩,
      ih fun x hx => h x (List.mem_cons_of_mem w hx)]

theorem collectSolvedEntries_roundtrip {sw : List SolvedEntry}
    (hinv : ∀ E ∈ sw, (3 ≤ E.length ∧ E.length ≤ 12) ∧ E.words.Nodup ∧
      ∀ w ∈ E.words,
        isWordAZ w = true ∧ (w.data.length : Int) = E.length ∧ isSuspiciousWord w = false) :
    collectSolvedEntries (sw.map solvedEntryToJson) = sw := by
  induction sw with
  | nil => rfl
  | cons E es ih =>
    obtain ⟨hb, hnd, hws⟩ := hinv E (List.mem_cons_self E es)
    have hstep : collectSolvedEntry (solvedEntryToJson E) =
        (if 3 ≤ E.length ∧ E.length ≤ 12 then
          some ⟨E.length, dedupePreserveOrder (collectSolvedWords E.length (E.words.map Json.str))⟩
        else none) := rfl
    simp only [List.map_cons, collectSolvedEntries, hstep, if_pos hb,
      collectSolvedWords_roundtrip hws, dedupePreserveOrder_eq_self hnd]
    rw [ih fun x hx => hinv x (List.mem_cons_of_mem E hx)]

theorem normalizeSolvedWordsByLength_roundtrip {sw : List SolvedEntry} (notes : List String)
    (hsorted : sw.Pairwise fun a b => a.length ≤ b.length)
    (hinv : ∀ E ∈ sw, (3 ≤ E.length ∧ E.length ≤ 12) ∧ E.words.Nodup ∧
      ∀ w ∈ E.words,
        isWordAZ w = true ∧ (w.data.length : Int) = E.length ∧ isSuspiciousWord w = false) :
    normalizeSolvedWordsByLength (some (Json.arr (sw.map solvedEntryToJson))) notes =
      (some sw, notes) := by
  simp only [normalizeSolvedWordsByLength]
  rw [collectSolvedEntries_roundtrip hinv]
  rw [List.Sorted.insertionSort_eq hsorted]

theorem wsBoardFields_getField (b : WordscapesBoard) :
    getField (wsBoardFields b) "letters" = some (Json.arr (b.letters.map Json.str)) ∧
    getField (wsBoardFields b) "missingByLength" =
      some (Json.arr (b.missingByLength.map mEntryToJson)) ∧
    getField (wsBoardFields b) "notes" = some (Json.arr (b.notes.map Json.str)) :=
  ⟨rfl, rfl, rfl⟩

theorem getField_wsBoardFields_wordLists (b : WordscapesBoard) :
    getField (wsBoardFields b) "wordLists" =
      (if b.wordLists = [] then none
       else some (Json.arr (b.wordLists.map wlEntryToJson))) := by
  unfold wsBoardFields
  by_cases h1 : b.wordLists = [] <;> by_cases h2 : b.solvedWordsByLength = [] <;>
    simp [h1, h2, getField]

theorem getField_wsBoardFields_solved (b : WordscapesBoard) :
    getField (wsBoardFields b) "solvedWordsByLength" =
      (if b.solvedWordsByLength = [] then none
       else some (Json.arr (b.solvedWordsByLength.map solvedEntryToJson))) := by
  unfold wsBoardFields
  by_cases h1 : b.wordLists = [] <;> by_cases h2 : b.solvedWordsByLength = [] <;>
    simp [h1, h2, getField]

theorem wsBoardFields_keys_ok (b : WordscapesBoard) :
    ((wsBoardFields b).map Prod.fst).filter
      (fun k => !ALLOWED_TOP_LEVEL_KEYS_WORDSCAPES.contains k) = [] := by
  unfold wsBoardFields
  by_cases h1 : b.wordLists = [] <;> by_cases h2 : b.solvedWordsByLength = [] <;>
    simp [h1, h2, ALLOWED_TOP_LEVEL_KEYS_WORDSCAPES]

theorem normalizeWordLists_some_props {gf : Option Json} {notes : List String}
    {wl : List WLEntry} {notes1 : List String}
    (h : normalizeWordLists gf notes = (some wl, notes1)) :
    (wl.Pairwise fun a b => a.length ≤ b.length) ∧
    ∀ e ∈ wl, (3 ≤ e.length ∧ e.length ≤ 12) ∧
      ∀ s ∈ e.slots, ∀ w, s = some w →
        isWordAZ w = true ∧ (w.data.length : Int) = e.length ∧ isSuspiciousWord w = false := by
  refine ⟨normalizeWordLists_some_sorted h, ?_⟩
  obtain ⟨xs, -, -, hwl⟩ := normalizeWordLists_some_inv h
  subst hwl
  intro e he
  obtain ⟨E, hE, rfl⟩ := List.mem_map.1 he
  have hEc := collectWordLists_inv 0 xs E ((List.mem_insertionSort _).1 hE)
  exact ⟨hEc.1, fun s hs w hsw => hEc.2 s hs w hsw⟩

theorem normalizeSolvedWordsByLength_some_props {gf : Option Json} {notes : List String}
    {sw : List SolvedEntry} {notes1 : List String}
    (h : normalizeSolvedWordsByLength gf notes = (some sw, notes1)) :
    (sw.Pairwise fun a b => a.length ≤ b.length) ∧
    ∀ E ∈ sw, (3 ≤ E.length ∧ E.length ≤ 12) ∧ E.words.Nodup ∧
      ∀ w ∈ E.words,
        isWordAZ w = true ∧ (w.data.length : Int) = E.length ∧ isSuspiciousWord w = false := by
  obtain ⟨xs, -, -, hsw⟩ := normalizeSolvedWordsByLength_some_inv h
  subst hsw
  refine ⟨List.sorted_insertionSort _ _, ?_⟩
  intro E hE
  exact collectSolvedEntries_inv xs E ((List.mem_insertionSort _).1 hE)

/-- Re-parsing the serialized canonical board succeeds with the identical
board, provided every merged count is still within the per-entry bound 20. -/
theorem parseWordscapes_roundtrip {fields : List (String × Json)} {b : WordscapesBoard}
    (h : parseWordscapes fields = Except.ok b)
    (hcnt : ∀ e ∈ b.missingByLength, e.count.getD 0 ≤ 20) :
    parseWordscapes (wsBoardFields b) = Except.ok b := by
  obtain ⟨-, lettersRaw, missingRaw, hlr, hmr, hletters, hmissing, hbranch⟩ :=
    parseWordscapes_ok_inv h
  have hlinv := normalizeLetters_ok_inv hletters
  have hminv := normalizeMissingByLength_ok_inv hmissing
  have hminv2 : ∀ e ∈ b.missingByLength, (3 ≤ e.length ∧ e.length ≤ 12) ∧
      (e.count = none ∨ ∃ c, e.count = some c ∧ 0 ≤ c ∧ c ≤ 20) := by
    intro e he
    refine ⟨(hminv.2 e he).1, ?_⟩
    rcases (hminv.2 e he).2 with hn | ⟨c, hc, hge⟩
    · exact Or.inl hn
    · refine Or.inr ⟨c, hc, hge, ?_⟩
      have hb := hcnt e he
      rw [hc] at hb
      simpa using hb
  have hrl := normalizeLetters_roundtrip hlinv.1 hlinv.2.1 hlinv.2.2.1 hlinv.2.2.2
  have hrm := normalizeMissingByLength_roundtrip hminv.1 hminv2
  have hrn := normalizeNotes_roundtrip b.notes
  have hkeys := wsBoardFields_keys_ok b
  have hgf := wsBoardFields_getField b
  by_cases hwle : b.wordLists = []
  · rcases hbranch with ⟨wl, notes1, hw, hwlne, hbwl, -, -⟩ |
      ⟨wlOpt, notes1, hw, hnone, hbwl, swOpt, notes2, hs, hbnotes, hbsolved⟩
    · rw [hwle] at hbwl
      exact absurd hbwl.symm hwlne
    · have hwlf : getField (wsBoardFields b) "wordLists" = none := by
        rw [getField_wsBoardFields_wordLists]
        simp [hwle]
      by_cases hswe : b.solvedWordsByLength = []
      · have hswf : getField (wsBoardFields b) "solvedWordsByLength" = none := by
          rw [getField_wsBoardFields_solved]
          simp [hswe]
        simp only [parseWordscapes, hkeys, ne_eq, not_true_eq_false, if_false,
          hgf.1, hgf.2.1, hgf.2.2, hwlf, hswf, hrl, hrm, hrn, bind, Except.bind,
          normalizeWordLists, normalizeSolvedWordsByLength, Option.getD_none]
        rw [← hwle, ← hswe]
      · have hsw' : ∃ sw, swOpt = some sw ∧ b.solvedWordsByLength = sw := by
          cases swOpt with
          | none => exact absurd hbsolved (by simpa using hswe)
          | some sw => exact ⟨sw, rfl, by simpa using hbsolved⟩
        obtain ⟨sw, hswOpt, hbsw⟩ := hsw'
        rw [hswOpt] at hs
        have hsprops := normalizeSolvedWordsByLength_some_props hs
        have hrsw := normalizeSolvedWordsByLength_roundtrip b.notes hsprops.1 hsprops.2
        have hswne : ¬ sw = [] := by rw [← hbsw]; exact hswe
        have hswf : getField (wsBoardFields b) "solvedWordsByLength" =
            some (Json.arr (sw.map solvedEntryToJson)) := by
          rw [getField_wsBoardFields_solved]
          simp [hbsw, hswne]
        simp only [parseWordscapes, hkeys, ne_eq, not_true_eq_false, if_false,
          hgf.1, hgf.2.1, hgf.2.2, hwlf, hswf, hrl, hrm, hrn, bind, Except.bind,
          normalizeWordLists, hrsw, Option.getD_some]
        rw [← hwle, ← hbsw]
  · rcases hbranch with ⟨wl, notes1, hw, hwlne, hbwl, hbnotes, hbsolved⟩ |
      ⟨wlOpt, notes1, hw, hnone, hbwl, swOpt, notes2, hs, hbnotes, hbsolved⟩
    · have hwprops := normalizeWordLists_some_props hw
      rw [← hbwl] at hwprops hwlne
      have hrwl := normalizeWordLists_roundtrip b.notes hwprops.2 hwprops.1
      have hwlf : getField (wsBoardFields b) "wordLists" =
          some (Json.arr (b.wordLists.map wlEntryToJson)) := by
        rw [getField_wsBoardFields_wordLists]
        simp [hwle]
      simp only [parseWordscapes, hkeys, ne_eq, not_true_eq_false, if_false,
        hgf.1, hgf.2.1, hgf.2.2, hwlf, hrl, hrm, hrn, bind, Except.bind, hrwl]
      rw [if_pos (by simpa using hwle)]
      rw [← hbwl] at hbsolved
      rw [← hbsolved]
    · exact absurd hbwl hwle

theorem parseModelOutput_ws_inv {v : Json} {b : WordscapesBoard} {pk : ParseOk}
    (h : parseModelOutput v = Except.ok pk) (hb : pk.board = AnyBoard.ws b) :
    ∃ fields, v = Json.obj fields ∧ parseWordscapes fields = Except.ok b := by
  unfold parseModelOutput at h
  split at h
  · split at h
    · rename_i fields hpo
      clear hpo
      split at h
      · split at h
        · obtain ⟨b', hpw, hpk⟩ := except_map_ok_iff.1 h
          refine ⟨fields, rfl, ?_⟩
          rw [← hpk] at hb
          have hbb : b' = b := by simpa using hb
          rw [← hbb]
          exact hpw
        · split at h
          · obtain ⟨b', -, hpk⟩ := except_map_ok_iff.1 h
            rw [← hpk] at hb
            simp at hb
          · cases h
      · cases h
    · cases h
  · cases h

/-- C1 (amended): for every input the router parses into a Wordscapes board
whose merged counts are all still at most 20, re-parsing the serialized
canonical board succeeds and yields the identical board (with the serialized
object as the new raw payload). -/
theorem c1_amended :
    ∀ (v : Json) (pk : ParseOk) (b : WordscapesBoard),
      parseModelOutput v = Except.ok pk → pk.board = AnyBoard.ws b →
      (∀ e ∈ b.missingByLength, e.count.getD 0 ≤ 20) →
      parseModelOutput (wsBoardToJson b) =
        Except.ok ⟨AnyBoard.ws b, wsBoardToJson b⟩ := by
  intro v pk b h hb hcnt
  obtain ⟨fields, -, hpw⟩ := parseModelOutput_ws_inv h hb
  have hrt := parseWordscapes_roundtrip hpw hcnt
  have hsch : getField (wsBoardFields b) "schema" =
      some (Json.str "WORDVINDER_BOARD_EXTRACT_V4") := rfl
  have hgm : getField (wsBoardFields b) "game" = some (Json.str "WORDSCAPES") := rfl
  simp only [parseModelOutput, wsBoardToJson, isPlainObject, if_true, hsch, hgm, hrt, Except.map]
  rw [if_pos (by constructor <;> trivial)]

/-- The C1 counterexample input: two raw entries `{length:3,count:15}` merge
to `{length:3,count:30}`, which the re-parse rejects. -/
def c1v : Json :=
  Json.obj [("schema", Json.str "WORDVINDER_BOARD_EXTRACT_V4"),
    ("game", Json.str "WORDSCAPES"),
    ("letters", Json.arr [Json.str "A", Json.str "B", Json.str "C", Json.str "D", Json.str "E"]),
    ("missingByLength", Json.arr
      [Json.obj [("length", Json.num 3), ("count", Json.num 15)],
       Json.obj [("length", Json.num 3), ("count", Json.num 15)]])]

/-- The canonical board produced from `c1v`, with merged count 30 > 20. -/
def c1Board : WordscapesBoard :=
  ⟨["A", "B", "C", "D", "E"], [⟨3, some 30⟩], [], [], []⟩

/-- C1 counterexample: a successful Wordscapes parse whose serialized output
fails to re-parse (normalization is not idempotent as claimed). -/
theorem c1_counterexample :
    parseModelOutput c1v = Except.ok ⟨AnyBoard.ws c1Board, c1v⟩ ∧
    parseModelOutput (wsBoardToJson c1Board) =
      Except.error ⟨"MODEL_OUTPUT_SCHEMA_INVALID",
        "missingByLength count must be null or an integer between 0 and 20."⟩ :=
  ⟨rfl, rfl⟩

/-- A C1 witness input whose merged counts stay in range. -/
def c1wv : Json :=
  Json.obj [("schema", Json.str "WORDVINDER_BOARD_EXTRACT_V4"),
    ("game", Json.str "WORDSCAPES"),
    ("letters", Json.arr [Json.str "A", Json.str "B", Json.str "C", Json.str "D", Json.str "E"]),
    ("missingByLength", Json.arr [Json.obj [("length", Json.num 3), ("count", Json.num 2)]])]

def c1wBoard : WordscapesBoard :=
  ⟨["A", "B", "C", "D", "E"], [⟨3, some 2⟩], [], [], []⟩

/-- Witness for C1 amended at a concrete in-range input. -/
theorem c1_amended_witness :
    parseModelOutput (wsBoardToJson c1wBoard) =
      Except.ok ⟨AnyBoard.ws c1wBoard, wsBoardToJson c1wBoard⟩ :=
  c1_amended c1wv ⟨AnyBoard.ws c1wBoard, c1wv⟩ c1wBoard rfl rfl (by decide)

end WordVinder
